import Mathlib

/-!
Verification of the hybrid retrieval engine of `gh_star_search`.

This file gives a shallow embedding of the two modules that carry the
algorithmic content of the repository:

* `src/gh_star_search/core/database.py` — `StarDatabase.vector_search`
  (brute-force cosine top-k over a NumPy matrix) and
  `StarDatabase.keyword_search` (substring query ordered by stargazers), and
* `src/gh_star_search/core/searcher.py` — `HybridSearcher` with its
  `search` dispatch, `_semantic_search`, `_keyword_search` and
  `_hybrid_search` (Reciprocal Rank Fusion).

Modelling conventions:

* Python floats are modelled by exact rationals (`ℚ`).  `np.linalg.norm`
  is modelled by `Rat.sqrt` of the sum of squares; this is exact whenever
  the squared norm is a perfect square of a rational, which holds for every
  concrete vector used in this file.  Division by zero is total in `ℚ`
  (`x / 0 = 0`); at runtime NumPy instead produces `NaN` similarities, but
  in both cases the search still returns results (see the zero-norm
  theorems below, which only rely on lengths, not on similarity values).
* `np.argsort` (default kind) behaves as a stable ascending sort on the
  small arrays this program handles (NumPy's introsort falls back to a
  stable insertion sort below its partition threshold); it is modelled as
  the sort of positions by (value, position) lexicographically.
  Python's `sorted` and DuckDB's `ORDER BY` are stable sorts; both are
  modelled as the stable descending sort `stableSortDesc`.
* Python `dict` (insertion ordered) becomes an association list.
* Exceptions become `Except DbError`: a missing embeddings file raises
  `FileNotFoundError` (`fileNotFound`); a query vector whose length
  disagrees with the matrix width makes `embeddings @ query_norm` raise a
  NumPy shape `ValueError` (`dimMismatch`); fancy-indexing `ids` out of
  range raises `IndexError` (`indexOutOfRange`); and an empty `top_ids`
  builds the malformed SQL `WHERE id IN ()`, a DuckDB parser error
  (`sqlEmptyInList`).
* DuckDB `ILIKE '%' || kw || '%'` is modelled as case-insensitive
  substring containment (ASCII lowering; keywords containing SQL wildcard
  characters are not modelled, no claim depends on them).  A `NULL`
  description never matches.
-/

namespace GhStarSearch

/-- Metadata row of the `starred_repos` DuckDB table, restricted to the
columns that `vector_search` / `keyword_search` read back. -/
structure Row where
  id : Int
  full_name : String
  description : Option String
  html_url : String
  language : Option String
  topics : List String
  stargazers_count : Int
deriving DecidableEq

/-- Result record (the Python `dict` both search paths return).  A key that
the Python code has not (yet) set is modelled by `none` (for `similarity`)
and `""` (for `match_type`). -/
structure ResultRow where
  full_name : String
  description : Option String
  html_url : String
  language : Option String
  topics : List String
  stargazers_count : Int
  similarity : Option ℚ
  match_type : String
deriving DecidableEq

/-- Exceptions that can escape `StarDatabase.vector_search`. -/
inductive DbError where
  | fileNotFound
  | dimMismatch
  | indexOutOfRange
  | sqlEmptyInList
deriving DecidableEq

/-- State of a `StarDatabase`: the metadata table (rows in insertion
order) and, when the `.npy` artifacts exist, the cached pair of the
embedding matrix and the parallel id array. -/
structure StarDatabase where
  table : List Row
  vectors : Option (List (List ℚ) × List Int)

/-- Dot product of two vectors (`embeddings @ query_norm`, rowwise). -/
def dotQ (u v : List ℚ) : ℚ := (List.zipWith (fun a b => a * b) u v).sum

/-- Squared L2 norm; `np.linalg.norm v = Rat.sqrt (normSq v)`. -/
def normSq (v : List ℚ) : ℚ := dotQ v v

/-- ASCII lowering used to model `ILIKE` case-insensitivity. -/
def lowerChars (s : String) : List Char := s.data.map Char.toLower

/-- Check that `pat` occurs at the start of `s`. -/
def startsC : List Char → List Char → Bool
  | [], _ => true
  | _ :: _, [] => false
  | a :: as, b :: bs => a == b && startsC as bs

/-- Check that `pat` occurs as a contiguous substring of `s`
(the semantics of `s ILIKE '%' || pat || '%'` after lowering). -/
def containsC (pat : List Char) : List Char → Bool
  | [] => pat.isEmpty
  | c :: rest => startsC pat (c :: rest) || containsC pat rest

/-- Predicate of the SQL `WHERE` clause of `keyword_search`:
`full_name ILIKE '%'||kw||'%' OR description ILIKE '%'||kw||'%'`.
A `NULL` description yields SQL `NULL`, which does not satisfy `WHERE`. -/
def rowMatches (kw : String) (r : Row) : Bool :=
  containsC (lowerChars kw) (lowerChars r.full_name) ||
    (match r.description with
      | none => false
      | some d => containsC (lowerChars kw) (lowerChars d))

/-- Comparison used to model `np.argsort` on the position/value pairs of
`List.enum`: ascending value, ties kept in ascending position (stability
of the underlying sort on the small arrays the program handles). -/
def ascRel (a b : ℕ × ℚ) : Prop := a.2 < b.2 ∨ (a.2 = b.2 ∧ a.1 ≤ b.1)

instance : DecidableRel ascRel :=
  fun a b => inferInstanceAs (Decidable (a.2 < b.2 ∨ (a.2 = b.2 ∧ a.1 ≤ b.1)))

instance : IsTotal (ℕ × ℚ) ascRel := by
  constructor
  intro a b
  rcases lt_trichotomy a.2 b.2 with h | h | h
  · exact Or.inl (Or.inl h)
  · rcases Nat.le_total a.1 b.1 with h1 | h1
    · exact Or.inl (Or.inr ⟨h, h1⟩)
    · exact Or.inr (Or.inr ⟨h.symm, h1⟩)
  · exact Or.inr (Or.inl h)

instance : IsTrans (ℕ × ℚ) ascRel := by
  constructor
  intro a b c hab hbc
  rcases hab with h1 | ⟨h1, h1p⟩
  · rcases hbc with h2 | ⟨h2, _⟩
    · exact Or.inl (h1.trans h2)
    · exact Or.inl (h2 ▸ h1)
  · rcases hbc with h2 | ⟨h2, h2p⟩
    · exact Or.inl (h1 ▸ h2)
    · exact Or.inr ⟨h1.trans h2, h1p.trans h2p⟩

/-- Model of `np.argsort(xs)` (ascending, stable): the list of positions
of `xs` reordered so that the values ascend. -/
def argsort (xs : List ℚ) : List ℕ := (xs.enum.insertionSort ascRel).map Prod.fst

/-- Comparison used to model Python's `sorted(..., key=f, reverse=True)`
and SQL `ORDER BY f DESC` (both stable): descending key, ties kept in
ascending original position. -/
def descRel {α : Type} (f : α → ℚ) (a b : ℕ × α) : Prop :=
  f b.2 < f a.2 ∨ (f a.2 = f b.2 ∧ a.1 ≤ b.1)

instance {α : Type} (f : α → ℚ) : DecidableRel (descRel f) :=
  fun a b => inferInstanceAs (Decidable (f b.2 < f a.2 ∨ (f a.2 = f b.2 ∧ a.1 ≤ b.1)))

instance {α : Type} (f : α → ℚ) : IsTotal (ℕ × α) (descRel f) := by
  constructor
  intro a b
  rcases lt_trichotomy (f a.2) (f b.2) with h | h | h
  · exact Or.inr (Or.inl h)
  · rcases Nat.le_total a.1 b.1 with h1 | h1
    · exact Or.inl (Or.inr ⟨h, h1⟩)
    · exact Or.inr (Or.inr ⟨h.symm, h1⟩)
  · exact Or.inl (Or.inl h)

instance {α : Type} (f : α → ℚ) : IsTrans (ℕ × α) (descRel f) := by
  constructor
  intro a b c hab hbc
  rcases hab with h1 | ⟨h1, h1p⟩
  · rcases hbc with h2 | ⟨h2, _⟩
    · exact Or.inl (h2.trans h1)
    · exact Or.inl (h2 ▸ h1)
  · rcases hbc with h2 | ⟨h2, h2p⟩
    · exact Or.inl (h1 ▸ h2)
    · exact Or.inr ⟨h1.trans h2, h1p.trans h2p⟩

/-- The position/value pairs of `xs` sorted for a stable descending sort
by key `f`. -/
def sortedEnum {α : Type} (f : α → ℚ) (xs : List α) : List (ℕ × α) :=
  xs.enum.insertionSort (descRel f)

/-- Model of the stable descending sorts of the sources (Python `sorted`
with `reverse=True`, SQL `ORDER BY ... DESC`). -/
def stableSortDesc {α : Type} (f : α → ℚ) (xs : List α) : List α :=
  (sortedEnum f xs).map Prod.snd

/-- Row shaping of `keyword_search` (no similarity key in the dict). -/
def Row.toKeywordResult (r : Row) : ResultRow :=
  { full_name := r.full_name, description := r.description,
    html_url := r.html_url, language := r.language, topics := r.topics,
    stargazers_count := r.stargazers_count, similarity := none,
    match_type := "" }

/-- Row shaping of `vector_search` (carries the cosine similarity). -/
def Row.toVectorResult (r : Row) (score : ℚ) : ResultRow :=
  { full_name := r.full_name, description := r.description,
    html_url := r.html_url, language := r.language, topics := r.topics,
    stargazers_count := r.stargazers_count, similarity := some score,
    match_type := "" }

namespace StarDatabase

/-- Model of `StarDatabase.keyword_search`: filter the table by the
substring predicate, order by `stargazers_count DESC` (stable, no further
tie-break in the SQL), truncate to `limit`, shape the rows. -/
def keyword_search (db : StarDatabase) (keyword : String) (limit : ℕ) :
    List ResultRow :=
  ((stableSortDesc (fun r => (r.stargazers_count : ℚ))
      (db.table.filter (rowMatches keyword))).take limit).map Row.toKeywordResult

/-- Model of `StarDatabase.vector_search`: load the cached arrays,
normalize the query by its L2 norm (no zero check in the source), compute
all dot products, take the `limit` positions of largest similarity
(reversed ascending argsort), map positions to ids, and look the metadata
rows up by id.  Each failure mode of the Python code is a `DbError`. -/
def vector_search (db : StarDatabase) (query : List ℚ) (limit : ℕ) :
    Except DbError (List ResultRow) :=
  match db.vectors with
  | none => .error .fileNotFound
  | some (e, ids) =>
    let qn := query.map (fun x => x / Rat.sqrt (normSq query))
    if e.all (fun v => v.length == query.length) then
      let sims := e.map (fun v => dotQ v qn)
      let top := ((argsort sims).reverse).take limit
      if top.all (fun i => decide (i < ids.length)) then
        let topIds := top.map (fun i => ids.getD i 0)
        if topIds.isEmpty then .error .sqlEmptyInList
        else
          .ok ((topIds.zip (top.map (fun i => sims.getD i 0))).filterMap
            (fun p => (db.table.find? (fun r => r.id == p.1)).map
              (fun r => r.toVectorResult p.2)))
      else .error .indexOutOfRange
    else .error .dimMismatch

end StarDatabase

/-- Accumulator entry of the RRF fusion: one binding of the Python
`scores` dict, keyed by `full_name`. -/
structure FuseEntry where
  key : String
  data : ResultRow
  score : ℚ
deriving DecidableEq

/-- Test `key in scores` on the association list. -/
def hasKey (acc : List FuseEntry) (k : String) : Bool :=
  acc.any (fun e => e.key == k)

/-- In-place update of the binding of `k`: add `rrf` to its score and set
the `match_type` of its data snapshot (position in the dict unchanged). -/
def updateScore (k : String) (rrf : ℚ) (mt : String) (acc : List FuseEntry) :
    List FuseEntry :=
  acc.map (fun e => if e.key = k then
    { e with score := e.score + rrf,
             data := { e.data with match_type := mt } } else e)

namespace HybridSearcher

/-- Loop body of the semantic contribution of `_hybrid_search`: insert the
key with score 0 if absent, then add `semantic_weight / (60 + rank + 1)`
and stamp `match_type = "semantic"`. -/
def semStep (w : ℚ) (acc : List FuseEntry) (p : ℕ × ResultRow) : List FuseEntry :=
  updateScore p.2.full_name (w / (60 + (p.1 : ℚ) + 1)) "semantic"
    (if hasKey acc p.2.full_name then acc else acc ++ [⟨p.2.full_name, p.2, 0⟩])

/-- Loop body of the keyword contribution of `_hybrid_search`: an existing
key gains `(1 - semantic_weight) / (60 + rank + 1)` and is upgraded to
`match_type = "hybrid"`; a new key is appended with that score and
`match_type = "keyword"`. -/
def kwStep (w : ℚ) (acc : List FuseEntry) (p : ℕ × ResultRow) : List FuseEntry :=
  if hasKey acc p.2.full_name then
    updateScore p.2.full_name ((1 - w) / (60 + (p.1 : ℚ) + 1)) "hybrid" acc
  else
    acc ++ [⟨p.2.full_name, { p.2 with match_type := "keyword" },
      (1 - w) / (60 + (p.1 : ℚ) + 1)⟩]

/-- The `scores` dict after both RRF loops of `_hybrid_search`. -/
def buildScores (w : ℚ) (sem kw : List ResultRow) : List FuseEntry :=
  kw.enum.foldl (kwStep w) (sem.enum.foldl (semStep w) [])

/-- Final stage of `_hybrid_search`: sort the dict values by fused score
descending (Python `sorted` is stable, the dict is insertion ordered),
truncate to `limit`, and return the data snapshots. -/
def fuse (w : ℚ) (limit : ℕ) (sem kw : List ResultRow) : List ResultRow :=
  ((stableSortDesc (fun e => e.score) (buildScores w sem kw)).take limit).map
    (fun e => e.data)

/-- Model of `HybridSearcher._semantic_search`. -/
def semantic_search (db : StarDatabase) (emb : String → List ℚ)
    (query : String) (limit : ℕ) : Except DbError (List ResultRow) :=
  (db.vector_search (emb query) limit).map
    (List.map (fun r => { r with match_type := "semantic" }))

/-- Model of `HybridSearcher._keyword_search`. -/
def keyword_search (db : StarDatabase) (query : String) (limit : ℕ) :
    List ResultRow :=
  (db.keyword_search query limit).map
    (fun r => { r with match_type := "keyword", similarity := none })

/-- Model of `HybridSearcher._hybrid_search` (a raised exception in the
semantic sub-search aborts the whole call before the keyword sub-search). -/
def hybrid_search (db : StarDatabase) (emb : String → List ℚ)
    (query : String) (limit : ℕ) (w : ℚ) : Except DbError (List ResultRow) :=
  match semantic_search db emb query (limit * 2) with
  | .error err => .error err
  | .ok sem => .ok (fuse w limit sem (keyword_search db query (limit * 2)))

/-- Model of `HybridSearcher.search`: dispatch on the mode string; every
mode other than "semantic" and "keyword" falls to the hybrid branch. -/
def search (db : StarDatabase) (emb : String → List ℚ) (query mode : String)
    (limit : ℕ) (w : ℚ) : Except DbError (List ResultRow) :=
  if mode = "semantic" then semantic_search db emb query limit
  else if mode = "keyword" then .ok (keyword_search db query limit)
  else hybrid_search db emb query limit w

end HybridSearcher

/-- Modelled from the spec: the accumulated RRF score of identity `k`,
`Σ weight / (k_constant + rank + 1)` over the (zero-based) ranks at which
`k` occurs in each input list, with `k_constant = 60` and weights
`(w, 1 - w)`. -/
def rrfScoreSpec (w : ℚ) (sem kw : List ResultRow) (k : String) : ℚ :=
  ((sem.enum.filter (fun p => p.2.full_name == k)).map
    (fun p => w / (60 + (p.1 : ℚ) + 1))).sum +
  ((kw.enum.filter (fun p => p.2.full_name == k)).map
    (fun p => (1 - w) / (60 + (p.1 : ℚ) + 1))).sum

/-- Append a key if it has not been seen yet. -/
def addKey (acc : List String) (k : String) : List String :=
  if k ∈ acc then acc else acc ++ [k]

/-- Modelled from the spec: the identity keys in the order in which they
are first encountered across the input lists. -/
def firstSeen (ks : List String) : List String := ks.foldl addKey []

/-! ### Toolkit: facts about the stable sorts -/

theorem sortedEnum_perm {α : Type} (f : α → ℚ) (xs : List α) :
    List.Perm (sortedEnum f xs) xs.enum :=
  List.perm_insertionSort _ _

theorem sortedEnum_sorted {α : Type} (f : α → ℚ) (xs : List α) :
    List.Sorted (descRel f) (sortedEnum f xs) :=
  List.sorted_insertionSort _ _

theorem sortedEnum_nodup_fst {α : Type} (f : α → ℚ) (xs : List α) :
    ((sortedEnum f xs).map Prod.fst).Nodup :=
  (((sortedEnum_perm f xs).map Prod.fst).nodup_iff).mpr (List.nodup_enum_map_fst xs)

theorem stableSortDesc_perm {α : Type} (f : α → ℚ) (xs : List α) :
    List.Perm (stableSortDesc f xs) xs := by
  have h := (sortedEnum_perm f xs).map Prod.snd
  rwa [List.enum_map_snd] at h

theorem length_stableSortDesc {α : Type} (f : α → ℚ) (xs : List α) :
    (stableSortDesc f xs).length = xs.length :=
  (stableSortDesc_perm f xs).length_eq

/-- Pairwise strict version of sortedness: distinct positions turn the
tie case into a strict position comparison. -/
theorem sortedEnum_pairwise_strict {α : Type} (f : α → ℚ) (xs : List α) :
    (sortedEnum f xs).Pairwise
      (fun a b => f b.2 < f a.2 ∨ (f a.2 = f b.2 ∧ a.1 < b.1)) := by
  have hs : (sortedEnum f xs).Pairwise (descRel f) := sortedEnum_sorted f xs
  have hne : (sortedEnum f xs).Pairwise (fun a b => a.1 ≠ b.1) :=
    List.pairwise_map.mp (sortedEnum_nodup_fst f xs)
  refine (hs.and hne).imp ?_
  rintro a b ⟨h1 | ⟨h1, h1p⟩, h2⟩
  · exact Or.inl h1
  · exact Or.inr ⟨h1, lt_of_le_of_ne h1p h2⟩

theorem argsort_perm (xs : List ℚ) : List.Perm (argsort xs) (List.range xs.length) := by
  have h := (List.perm_insertionSort ascRel xs.enum).map Prod.fst
  rwa [List.enum_map_fst] at h

theorem length_argsort (xs : List ℚ) : (argsort xs).length = xs.length := by
  have := (argsort_perm xs).length_eq
  simpa using this

theorem mem_argsort {xs : List ℚ} {i : ℕ} (h : i ∈ argsort xs) : i < xs.length := by
  have := (argsort_perm xs).mem_iff.mp h
  simpa using this

theorem nodup_argsort (xs : List ℚ) : (argsort xs).Nodup :=
  ((argsort_perm xs).nodup_iff).mpr (List.nodup_range _)

/-- The reversed argsort lists positions of weakly descending value;
ties appear with strictly descending position. -/
theorem argsort_reverse_pairwise (xs : List ℚ) :
    ((argsort xs).reverse).Pairwise
      (fun i j => xs.getD j 0 < xs.getD i 0 ∨
        (xs.getD i 0 = xs.getD j 0 ∧ j < i)) := by
  have hs : (xs.enum.insertionSort ascRel).Pairwise ascRel :=
    List.sorted_insertionSort _ _
  have hnd : ((xs.enum.insertionSort ascRel).map Prod.fst).Nodup :=
    (((List.perm_insertionSort ascRel xs.enum).map Prod.fst).nodup_iff).mpr
      (List.nodup_enum_map_fst xs)
  have hne : (xs.enum.insertionSort ascRel).Pairwise (fun a b => a.1 ≠ b.1) :=
    List.pairwise_map.mp hnd
  have hval : ∀ p ∈ xs.enum.insertionSort ascRel, xs.getD p.1 0 = p.2 := by
    intro p hp
    have hp2 : p ∈ xs.enum := (List.perm_insertionSort ascRel xs.enum).mem_iff.mp hp
    have := List.mem_enum_iff_getElem?.mp hp2
    simp [List.getD, List.get?_eq_getElem?] at this ⊢
    simp [this]
  have hrev : ((xs.enum.insertionSort ascRel).reverse).Pairwise
      (fun a b => ascRel b a ∧ b.1 ≠ a.1) := by
    rw [List.pairwise_reverse]
    exact (hs.and hne).imp (by
      rintro a b ⟨h1, h2⟩
      exact ⟨h1, fun hc => h2 hc⟩)
  have : (argsort xs).reverse = ((xs.enum.insertionSort ascRel).reverse).map Prod.fst := by
    rw [argsort, List.map_reverse]
  rw [this]
  rw [List.pairwise_map]
  refine hrev.imp_of_mem ?_
  intro a b ha hb h
  have hva : xs.getD a.1 0 = a.2 := hval a (List.mem_reverse.mp ha)
  have hvb : xs.getD b.1 0 = b.2 := hval b (List.mem_reverse.mp hb)
  rcases h.1 with h1 | ⟨h1, h1p⟩
  · exact Or.inl (by rw [hva, hvb]; exact h1)
  · refine Or.inr ⟨by rw [hva, hvb]; exact h1.symm, ?_⟩
    exact lt_of_le_of_ne h1p h.2

/-! ### Toolkit: facts about the RRF accumulator -/

/-- Sum of the scores bound to key `k` (the dict lookup, once keys are
known to be unduplicated). -/
def scoreOf (acc : List FuseEntry) (k : String) : ℚ :=
  ((acc.filter (fun e => e.key == k)).map (fun e => e.score)).sum

theorem keys_updateScore (k : String) (rrf : ℚ) (mt : String) (acc : List FuseEntry) :
    (updateScore k rrf mt acc).map (fun e => e.key) = acc.map (fun e => e.key) := by
  unfold updateScore
  rw [List.map_map]
  apply List.map_congr_left
  intro e _
  by_cases h : e.key = k
  · simp [Function.comp, h]
  · simp [Function.comp, h]

theorem hasKey_iff {acc : List FuseEntry} {k : String} :
    hasKey acc k = true ↔ k ∈ acc.map (fun e => e.key) := by
  simp [hasKey, List.any_eq_true, beq_iff_eq]

theorem keys_semStep (w : ℚ) (acc : List FuseEntry) (p : ℕ × ResultRow) :
    (HybridSearcher.semStep w acc p).map (fun e => e.key) =
      addKey (acc.map (fun e => e.key)) p.2.full_name := by
  unfold HybridSearcher.semStep addKey
  by_cases h : hasKey acc p.2.full_name
  · rw [if_pos h, if_pos (hasKey_iff.mp h), keys_updateScore]
  · rw [if_neg h, if_neg (fun hm => h (hasKey_iff.mpr hm)), keys_updateScore]
    simp

theorem keys_kwStep (w : ℚ) (acc : List FuseEntry) (p : ℕ × ResultRow) :
    (HybridSearcher.kwStep w acc p).map (fun e => e.key) =
      addKey (acc.map (fun e => e.key)) p.2.full_name := by
  unfold HybridSearcher.kwStep addKey
  by_cases h : hasKey acc p.2.full_name
  · rw [if_pos h, if_pos (hasKey_iff.mp h), keys_updateScore]
  · rw [if_neg h, if_neg (fun hm => h (hasKey_iff.mpr hm))]
    simp

theorem keys_foldl_semStep (w : ℚ) :
    ∀ (l : List (ℕ × ResultRow)) (acc : List FuseEntry),
    ((l.foldl (HybridSearcher.semStep w) acc).map (fun e => e.key)) =
      (l.map (fun p => p.2.full_name)).foldl addKey (acc.map (fun e => e.key))
  | [], acc => rfl
  | p :: l, acc => by
    simp only [List.foldl_cons, List.map_cons]
    rw [keys_foldl_semStep w l, keys_semStep]

theorem keys_foldl_kwStep (w : ℚ) :
    ∀ (l : List (ℕ × ResultRow)) (acc : List FuseEntry),
    ((l.foldl (HybridSearcher.kwStep w) acc).map (fun e => e.key)) =
      (l.map (fun p => p.2.full_name)).foldl addKey (acc.map (fun e => e.key))
  | [], acc => rfl
  | p :: l, acc => by
    simp only [List.foldl_cons, List.map_cons]
    rw [keys_foldl_kwStep w l, keys_kwStep]

theorem enum_map_name (l : List ResultRow) :
    l.enum.map (fun p => (Prod.snd p).full_name) = l.map (fun r => r.full_name) := by
  have : l.enum.map (fun p => (Prod.snd p).full_name) =
      (l.enum.map Prod.snd).map (fun r => r.full_name) := by
    rw [List.map_map]
    rfl
  rw [this, List.enum_map_snd]

theorem keys_buildScores (w : ℚ) (sem kw : List ResultRow) :
    (HybridSearcher.buildScores w sem kw).map (fun e => e.key) =
      firstSeen (sem.map (fun r => r.full_name) ++ kw.map (fun r => r.full_name)) := by
  unfold HybridSearcher.buildScores firstSeen
  rw [keys_foldl_kwStep, keys_foldl_semStep, enum_map_name, enum_map_name,
    List.foldl_append]
  rfl

theorem nodup_foldl_addKey :
    ∀ (ks : List String) (acc : List String), acc.Nodup →
      (ks.foldl addKey acc).Nodup
  | [], _, h => h
  | k :: ks, acc, h => by
    simp only [List.foldl_cons]
    refine nodup_foldl_addKey ks _ ?_
    unfold addKey
    by_cases hm : k ∈ acc
    · rwa [if_pos hm]
    · rw [if_neg hm]
      simp [List.nodup_append, h, hm]

theorem mem_foldl_addKey (k : String) :
    ∀ (ks : List String) (acc : List String),
      (k ∈ ks.foldl addKey acc ↔ k ∈ acc ∨ k ∈ ks)
  | [], acc => by simp
  | q :: ks, acc => by
    simp only [List.foldl_cons]
    rw [mem_foldl_addKey k ks]
    unfold addKey
    by_cases hm : q ∈ acc
    · rw [if_pos hm]
      constructor
      · rintro (h | h)
        · exact Or.inl h
        · exact Or.inr (List.mem_cons_of_mem _ h)
      · rintro (h | h)
        · exact Or.inl h
        · rcases List.mem_cons.mp h with rfl | h
          · exact Or.inl hm
          · exact Or.inr h
    · rw [if_neg hm]
      constructor
      · rintro (h | h)
        · rcases List.mem_append.mp h with h2 | h2
          · exact Or.inl h2
          · rcases List.mem_singleton.mp h2 with rfl
            exact Or.inr (List.mem_cons_self _ _)
        · exact Or.inr (List.mem_cons_of_mem _ h)
      · rintro (h | h)
        · exact Or.inl (List.mem_append.mpr (Or.inl h))
        · rcases List.mem_cons.mp h with rfl | h2
          · exact Or.inl (List.mem_append.mpr (Or.inr (List.mem_singleton.mpr rfl)))
          · exact Or.inr h2

theorem firstSeen_nodup (ks : List String) : (firstSeen ks).Nodup :=
  nodup_foldl_addKey ks [] List.nodup_nil

theorem mem_firstSeen {k : String} {ks : List String} :
    k ∈ firstSeen ks ↔ k ∈ ks := by
  rw [firstSeen, mem_foldl_addKey]
  simp

theorem nodup_keys_buildScores (w : ℚ) (sem kw : List ResultRow) :
    ((HybridSearcher.buildScores w sem kw).map (fun e => e.key)).Nodup := by
  rw [keys_buildScores]
  exact firstSeen_nodup _

theorem updateScore_cons (k : String) (rrf : ℚ) (mt : String) (e : FuseEntry)
    (acc : List FuseEntry) :
    updateScore k rrf mt (e :: acc) =
      (if e.key = k then
        { e with score := e.score + rrf,
                 data := { e.data with match_type := mt } } else e)
        :: updateScore k rrf mt acc := rfl

theorem scoreOf_cons (x : FuseEntry) (l : List FuseEntry) (k : String) :
    scoreOf (x :: l) k = (if x.key = k then x.score else 0) + scoreOf l k := by
  by_cases h : x.key = k
  · simp [scoreOf, List.filter_cons, h]
  · simp [scoreOf, List.filter_cons, h]

theorem scoreOf_eq_zero_of_not_mem :
    ∀ {acc : List FuseEntry} {k : String}, k ∉ acc.map (fun e => e.key) →
      scoreOf acc k = 0
  | [], _, _ => by simp [scoreOf]
  | e :: acc, k, h => by
    rw [List.map_cons, List.mem_cons] at h
    push_neg at h
    rw [scoreOf_cons, if_neg (fun hc => h.1 hc.symm), scoreOf_eq_zero_of_not_mem h.2]
    simp

theorem hasKey_cons (e : FuseEntry) (acc : List FuseEntry) (k : String) :
    hasKey (e :: acc) k = ((e.key == k) || hasKey acc k) := by
  simp [hasKey]

theorem scoreOf_updateScore (k kq : String) (rrf : ℚ) (mt : String) :
    ∀ acc : List FuseEntry, ((acc.map (fun e => e.key)).Nodup) →
    scoreOf (updateScore k rrf mt acc) kq =
      scoreOf acc kq + (if kq = k ∧ hasKey acc k = true then rrf else 0)
  | [], _ => by simp [scoreOf, updateScore, hasKey]
  | e :: acc, nd => by
    rw [List.map_cons, List.nodup_cons] at nd
    obtain ⟨hnotin, nd2⟩ := nd
    rw [updateScore_cons, scoreOf_cons, scoreOf_cons,
      scoreOf_updateScore k kq rrf mt acc nd2, hasKey_cons]
    by_cases hek : e.key = k
    · rw [if_pos hek]
      have hrest : hasKey acc k = false := by
        rw [← Bool.not_eq_true]
        intro hc
        exact hnotin (hek ▸ hasKey_iff.mp hc)
      rw [hrest]
      by_cases hq : kq = k
      · have : e.key = kq := hek.trans hq.symm
        simp only [this, if_pos rfl, hq, hek]
        simp
        ring
      · have hkne : e.key ≠ kq := by
          rw [hek]
          exact fun hc => hq hc.symm
        have hkq : ¬ k = kq := fun hc => hq hc.symm
        simp [hkne, hq, hek, hkq]
    · rw [if_neg hek]
      have : (e.key == k) = false := by simp [hek]
      rw [this]
      simp only [Bool.false_or]
      ring

theorem scoreOf_append_single (acc : List FuseEntry) (e : FuseEntry) (k : String) :
    scoreOf (acc ++ [e]) k = scoreOf acc k + (if e.key = k then e.score else 0) := by
  by_cases h : e.key = k
  · simp [scoreOf, List.filter_append, List.filter_cons, h]
  · simp [scoreOf, List.filter_append, List.filter_cons, h]

theorem hasKey_append_single (acc : List FuseEntry) (e : FuseEntry) (k : String) :
    hasKey (acc ++ [e]) k = (hasKey acc k || (e.key == k)) := by
  simp [hasKey, List.any_append]

theorem scoreOf_semStep (w : ℚ) (p : ℕ × ResultRow) (acc : List FuseEntry) (kq : String)
    (nd : ((acc.map (fun e => e.key)).Nodup)) :
    scoreOf (HybridSearcher.semStep w acc p) kq =
      scoreOf acc kq +
        (if p.2.full_name = kq then w / (60 + (p.1 : ℚ) + 1) else 0) := by
  unfold HybridSearcher.semStep
  by_cases h : hasKey acc p.2.full_name
  · rw [if_pos h, scoreOf_updateScore _ _ _ _ _ nd]
    by_cases hq : kq = p.2.full_name
    · rw [if_pos ⟨hq, h⟩, if_pos hq.symm]
    · rw [if_neg (fun hc => hq hc.1), if_neg (fun hc => hq hc.symm)]
  · rw [if_neg h]
    have hfresh : p.2.full_name ∉ acc.map (fun e => e.key) :=
      fun hm => h (hasKey_iff.mpr hm)
    have nd2 : (((acc ++ [(⟨p.2.full_name, p.2, 0⟩ : FuseEntry)]).map (fun e => e.key)).Nodup) := by
      rw [List.map_append]
      simp [List.nodup_append, nd, hfresh]
    rw [scoreOf_updateScore _ _ _ _ _ nd2, scoreOf_append_single,
      hasKey_append_single]
    by_cases hq : kq = p.2.full_name
    · simp [hq]
    · have hq2 : p.2.full_name ≠ kq := fun hc => hq hc.symm
      simp [hq, hq2]

theorem scoreOf_kwStep (w : ℚ) (p : ℕ × ResultRow) (acc : List FuseEntry) (kq : String)
    (nd : ((acc.map (fun e => e.key)).Nodup)) :
    scoreOf (HybridSearcher.kwStep w acc p) kq =
      scoreOf acc kq +
        (if p.2.full_name = kq then (1 - w) / (60 + (p.1 : ℚ) + 1) else 0) := by
  unfold HybridSearcher.kwStep
  by_cases h : hasKey acc p.2.full_name
  · rw [if_pos h, scoreOf_updateScore _ _ _ _ _ nd]
    by_cases hq : kq = p.2.full_name
    · rw [if_pos ⟨hq, h⟩, if_pos hq.symm]
    · rw [if_neg (fun hc => hq hc.1), if_neg (fun hc => hq hc.symm)]
  · rw [if_neg h, scoreOf_append_single]

theorem nodup_keys_semStep (w : ℚ) (acc : List FuseEntry) (p : ℕ × ResultRow)
    (nd : ((acc.map (fun e => e.key)).Nodup)) :
    (((HybridSearcher.semStep w acc p).map (fun e => e.key)).Nodup) := by
  rw [keys_semStep]
  unfold addKey
  by_cases hm : p.2.full_name ∈ acc.map (fun e => e.key)
  · rwa [if_pos hm]
  · rw [if_neg hm]
    simp [List.nodup_append, nd, hm]

theorem nodup_keys_kwStep (w : ℚ) (acc : List FuseEntry) (p : ℕ × ResultRow)
    (nd : ((acc.map (fun e => e.key)).Nodup)) :
    (((HybridSearcher.kwStep w acc p).map (fun e => e.key)).Nodup) := by
  rw [keys_kwStep]
  unfold addKey
  by_cases hm : p.2.full_name ∈ acc.map (fun e => e.key)
  · rwa [if_pos hm]
  · rw [if_neg hm]
    simp [List.nodup_append, nd, hm]

theorem scoreOf_foldl_semStep (w : ℚ) (kq : String) :
    ∀ (l : List (ℕ × ResultRow)) (acc : List FuseEntry),
      ((acc.map (fun e => e.key)).Nodup) →
    scoreOf (l.foldl (HybridSearcher.semStep w) acc) kq =
      scoreOf acc kq +
        ((l.filter (fun p => p.2.full_name == kq)).map
          (fun p => w / (60 + (p.1 : ℚ) + 1))).sum
  | [], acc, _ => by simp
  | p :: l, acc, nd => by
    simp only [List.foldl_cons]
    rw [scoreOf_foldl_semStep w kq l _ (nodup_keys_semStep w acc p nd),
      scoreOf_semStep w p acc kq nd, List.filter_cons]
    by_cases h : p.2.full_name = kq
    · simp only [h, if_pos rfl]
      simp [List.map_cons]
      ring
    · have : (p.2.full_name == kq) = false := by simp [h]
      simp only [this, if_neg h]
      simp

theorem scoreOf_foldl_kwStep (w : ℚ) (kq : String) :
    ∀ (l : List (ℕ × ResultRow)) (acc : List FuseEntry),
      ((acc.map (fun e => e.key)).Nodup) →
    scoreOf (l.foldl (HybridSearcher.kwStep w) acc) kq =
      scoreOf acc kq +
        ((l.filter (fun p => p.2.full_name == kq)).map
          (fun p => (1 - w) / (60 + (p.1 : ℚ) + 1))).sum
  | [], acc, _ => by simp
  | p :: l, acc, nd => by
    simp only [List.foldl_cons]
    rw [scoreOf_foldl_kwStep w kq l _ (nodup_keys_kwStep w acc p nd),
      scoreOf_kwStep w p acc kq nd, List.filter_cons]
    by_cases h : p.2.full_name = kq
    · simp only [h, if_pos rfl]
      simp [List.map_cons]
      ring
    · have : (p.2.full_name == kq) = false := by simp [h]
      simp only [this, if_neg h]
      simp

theorem nodup_keys_foldl_semStep (w : ℚ) :
    ∀ (l : List (ℕ × ResultRow)) (acc : List FuseEntry),
      ((acc.map (fun e => e.key)).Nodup) →
      (((l.foldl (HybridSearcher.semStep w) acc).map (fun e => e.key)).Nodup)
  | [], _, nd => nd
  | p :: l, acc, nd => by
    simp only [List.foldl_cons]
    exact nodup_keys_foldl_semStep w l _ (nodup_keys_semStep w acc p nd)

/-- The accumulated score of every key equals the spec-level RRF score. -/
theorem scoreOf_buildScores (w : ℚ) (sem kw : List ResultRow) (kq : String) :
    scoreOf (HybridSearcher.buildScores w sem kw) kq = rrfScoreSpec w sem kw kq := by
  unfold HybridSearcher.buildScores rrfScoreSpec
  rw [scoreOf_foldl_kwStep w kq kw.enum _
      (nodup_keys_foldl_semStep w sem.enum [] (by simp)),
    scoreOf_foldl_semStep w kq sem.enum [] (by simp)]
  simp [scoreOf]

/-- With unduplicated keys, each entry's stored score is the dict lookup. -/
theorem score_eq_scoreOf :
    ∀ {acc : List FuseEntry}, ((acc.map (fun e => e.key)).Nodup) →
      ∀ {e : FuseEntry}, e ∈ acc → e.score = scoreOf acc e.key
  | [], _, _, he => absurd he (List.not_mem_nil _)
  | x :: acc, nd, e, he => by
    rw [List.map_cons, List.nodup_cons] at nd
    obtain ⟨hnotin, nd2⟩ := nd
    rcases List.mem_cons.mp he with rfl | he2
    · rw [scoreOf_cons, if_pos rfl,
        scoreOf_eq_zero_of_not_mem hnotin]
      simp
    · have hne : x.key ≠ e.key := by
        intro hc
        exact hnotin (hc ▸ List.mem_map_of_mem (fun a => a.key) he2)
      rw [scoreOf_cons, if_neg hne, score_eq_scoreOf nd2 he2]
      simp

/-- Every entry of the accumulator carries its own key as the `full_name`
of its data snapshot. -/
theorem dataName_invariant_updateScore (k : String) (rrf : ℚ) (mt : String)
    (acc : List FuseEntry) (h : ∀ e ∈ acc, e.data.full_name = e.key) :
    ∀ e ∈ updateScore k rrf mt acc, e.data.full_name = e.key := by
  intro e he
  unfold updateScore at he
  rcases List.mem_map.mp he with ⟨e0, he0, rfl⟩
  by_cases hk : e0.key = k
  · simp only [if_pos hk]
    exact h e0 he0
  · simp only [if_neg hk]
    exact h e0 he0

theorem dataName_semStep (w : ℚ) (acc : List FuseEntry) (p : ℕ × ResultRow)
    (h : ∀ e ∈ acc, e.data.full_name = e.key) :
    ∀ e ∈ HybridSearcher.semStep w acc p, e.data.full_name = e.key := by
  unfold HybridSearcher.semStep
  apply dataName_invariant_updateScore
  by_cases hk : hasKey acc p.2.full_name
  · rw [if_pos hk]
    exact h
  · rw [if_neg hk]
    intro e he
    rcases List.mem_append.mp he with he2 | he2
    · exact h e he2
    · rcases List.mem_singleton.mp he2 with rfl
      rfl

theorem dataName_kwStep (w : ℚ) (acc : List FuseEntry) (p : ℕ × ResultRow)
    (h : ∀ e ∈ acc, e.data.full_name = e.key) :
    ∀ e ∈ HybridSearcher.kwStep w acc p, e.data.full_name = e.key := by
  unfold HybridSearcher.kwStep
  by_cases hk : hasKey acc p.2.full_name
  · rw [if_pos hk]
    exact dataName_invariant_updateScore _ _ _ _ h
  · rw [if_neg hk]
    intro e he
    rcases List.mem_append.mp he with he2 | he2
    · exact h e he2
    · rcases List.mem_singleton.mp he2 with rfl
      rfl

theorem dataName_foldl_semStep (w : ℚ) :
    ∀ (l : List (ℕ × ResultRow)) (acc : List FuseEntry),
      (∀ e ∈ acc, e.data.full_name = e.key) →
      ∀ e ∈ l.foldl (HybridSearcher.semStep w) acc, e.data.full_name = e.key
  | [], _, h => h
  | p :: l, acc, h => by
    simp only [List.foldl_cons]
    exact dataName_foldl_semStep w l _ (dataName_semStep w acc p h)

theorem dataName_foldl_kwStep (w : ℚ) :
    ∀ (l : List (ℕ × ResultRow)) (acc : List FuseEntry),
      (∀ e ∈ acc, e.data.full_name = e.key) →
      ∀ e ∈ l.foldl (HybridSearcher.kwStep w) acc, e.data.full_name = e.key
  | [], _, h => h
  | p :: l, acc, h => by
    simp only [List.foldl_cons]
    exact dataName_foldl_kwStep w l _ (dataName_kwStep w acc p h)

theorem dataName_buildScores (w : ℚ) (sem kw : List ResultRow) :
    ∀ e ∈ HybridSearcher.buildScores w sem kw, e.data.full_name = e.key := by
  unfold HybridSearcher.buildScores
  exact dataName_foldl_kwStep w kw.enum _
    (dataName_foldl_semStep w sem.enum [] (by intro e he; cases he))

/-! ### Toolkit: uniqueness of sorted permutations and lookup helpers -/

/-- Two lists that are permutations of each other and both pairwise
ordered by an asymmetric relation are equal. -/
theorem eq_of_perm_of_pairwise {α : Type} {R : α → α → Prop}
    (hasym : ∀ a b, R a b → ¬ R b a) :
    ∀ {l₁ l₂ : List α}, List.Perm l₁ l₂ → l₁.Pairwise R → l₂.Pairwise R → l₁ = l₂
  | [], l₂, hp, _, _ => (hp.nil_eq).symm ▸ rfl
  | a :: t₁, l₂, hp, p₁, p₂ => by
    match l₂, hp, p₂ with
    | [], hp, _ => exact absurd hp.symm (by simp)
    | b :: t₂, hp, p₂ =>
      have hab : a = b := by
        by_contra hne
        have ha2 : a ∈ b :: t₂ := hp.mem_iff.mp (List.mem_cons_self a t₁)
        have ha3 : a ∈ t₂ := by
          rcases List.mem_cons.mp ha2 with h | h
          · exact absurd h hne
          · exact h
        have hb2 : b ∈ a :: t₁ := hp.symm.mem_iff.mp (List.mem_cons_self b t₂)
        have hb3 : b ∈ t₁ := by
          rcases List.mem_cons.mp hb2 with h | h
          · exact absurd h.symm hne
          · exact h
        exact hasym a b (List.rel_of_pairwise_cons p₁ hb3)
          (List.rel_of_pairwise_cons p₂ ha3)
      subst hab
      have hpt : List.Perm t₁ t₂ := hp.cons_inv
      rw [eq_of_perm_of_pairwise hasym hpt p₁.of_cons p₂.of_cons]

/-- When every element finds some image, `filterMap` does not shrink. -/
theorem length_filterMap_of_forall_isSome {α β : Type} (f : α → Option β) :
    ∀ (l : List α), (∀ a ∈ l, (f a).isSome) → (l.filterMap f).length = l.length
  | [], _ => rfl
  | a :: l, h => by
    rcases Option.isSome_iff_exists.mp (h a (List.mem_cons_self a l)) with ⟨b, hb⟩
    rw [List.filterMap_cons, hb]
    simp only [List.length_cons]
    rw [length_filterMap_of_forall_isSome f l
      (fun x hx => h x (List.mem_cons_of_mem a hx))]

/-- The similarity column of the shaped result rows is exactly the list
of fused similarity values, provided every id is found in the table. -/
theorem simColumn_filterMap (table : List Row) :
    ∀ (pairs : List (Int × ℚ)),
      (∀ p ∈ pairs, (table.find? (fun r => r.id == p.1)).isSome) →
      ((pairs.filterMap (fun p => (table.find? (fun r => r.id == p.1)).map
        (fun r => r.toVectorResult p.2))).map (fun r => r.similarity)) =
        pairs.map (fun p => some p.2)
  | [], _ => rfl
  | p :: pairs, h => by
    rcases Option.isSome_iff_exists.mp (h p (List.mem_cons_self p pairs)) with ⟨r, hr⟩
    have hr2 : ((table.find? (fun r => r.id == p.1)).map
        (fun r => r.toVectorResult p.2)) = some (r.toVectorResult p.2) := by
      rw [hr]
      rfl
    rw [@List.filterMap_cons_some _ _
      (fun q => (table.find? (fun r => r.id == q.1)).map (fun r => r.toVectorResult q.2))
      p pairs _ hr2]
    rw [List.map_cons, List.map_cons]
    rw [simColumn_filterMap table pairs
      (fun x hx => h x (List.mem_cons_of_mem p hx))]
    rfl

/-- Strict comparison realised by the reversed argsort: descending value,
ties by descending position. -/
def posTieRel (a b : ℕ × ℚ) : Prop := b.2 < a.2 ∨ (a.2 = b.2 ∧ b.1 ≤ a.1)

instance : DecidableRel posTieRel :=
  fun a b => inferInstanceAs (Decidable (b.2 < a.2 ∨ (a.2 = b.2 ∧ b.1 ≤ a.1)))

instance : IsTotal (ℕ × ℚ) posTieRel := by
  constructor
  intro a b
  rcases lt_trichotomy a.2 b.2 with h | h | h
  · exact Or.inr (Or.inl h)
  · rcases Nat.le_total a.1 b.1 with h1 | h1
    · exact Or.inr (Or.inr ⟨h.symm, h1⟩)
    · exact Or.inl (Or.inr ⟨h, h1⟩)
  · exact Or.inl (Or.inl h)

instance : IsTrans (ℕ × ℚ) posTieRel := by
  constructor
  intro a b c hab hbc
  rcases hab with h1 | ⟨h1, h1p⟩
  · rcases hbc with h2 | ⟨h2, _⟩
    · exact Or.inl (h2.trans h1)
    · exact Or.inl (h2 ▸ h1)
  · rcases hbc with h2 | ⟨h2, h2p⟩
    · exact Or.inl (h1 ▸ h2)
    · exact Or.inr ⟨h1.trans h2, h2p.trans h1p⟩

/-- The reversed stable ascending argsort equals the independently
computed sort by (value descending, position descending). -/
theorem argsort_reverse_eq_posTie (xs : List ℚ) :
    (argsort xs).reverse = (xs.enum.insertionSort posTieRel).map Prod.fst := by
  have hA : (argsort xs).reverse = ((xs.enum.insertionSort ascRel).reverse).map Prod.fst := by
    rw [argsort, List.map_reverse]
  rw [hA]
  have key : (xs.enum.insertionSort ascRel).reverse = xs.enum.insertionSort posTieRel := by
    have hperm : List.Perm ((xs.enum.insertionSort ascRel).reverse)
        (xs.enum.insertionSort posTieRel) := by
      refine ((List.reverse_perm _).trans (List.perm_insertionSort ascRel xs.enum)).trans ?_
      exact (List.perm_insertionSort posTieRel xs.enum).symm
    have hasym : ∀ a b : ℕ × ℚ,
        (b.2 < a.2 ∨ (a.2 = b.2 ∧ b.1 < a.1)) →
        ¬ (a.2 < b.2 ∨ (b.2 = a.2 ∧ a.1 < b.1)) := by
      rintro a b (h1 | ⟨h1, h1p⟩) (h2 | ⟨h2, h2p⟩)
      · exact absurd h2 (not_lt.mpr h1.le)
      · exact absurd h2.symm (ne_of_gt h1)
      · exact absurd h2 (not_lt.mpr h1.ge)
      · exact absurd h2p (not_lt.mpr h1p.le)
    have nodupA : (((xs.enum.insertionSort ascRel).reverse).map Prod.fst).Nodup := by
      rw [List.map_reverse, List.nodup_reverse]
      exact (((List.perm_insertionSort ascRel xs.enum).map Prod.fst).nodup_iff).mpr
        (List.nodup_enum_map_fst xs)
    have nodupB : ((xs.enum.insertionSort posTieRel).map Prod.fst).Nodup :=
      (((List.perm_insertionSort posTieRel xs.enum).map Prod.fst).nodup_iff).mpr
        (List.nodup_enum_map_fst xs)
    have pA : ((xs.enum.insertionSort ascRel).reverse).Pairwise
        (fun a b => b.2 < a.2 ∨ (a.2 = b.2 ∧ b.1 < a.1)) := by
      have hs : (xs.enum.insertionSort ascRel).Pairwise ascRel :=
        List.sorted_insertionSort _ _
      have hne : (xs.enum.insertionSort ascRel).Pairwise (fun a b => a.1 ≠ b.1) :=
        List.pairwise_map.mp
          ((((List.perm_insertionSort ascRel xs.enum).map Prod.fst).nodup_iff).mpr
            (List.nodup_enum_map_fst xs))
      rw [List.pairwise_reverse]
      refine (hs.and hne).imp ?_
      rintro a b ⟨h1 | ⟨h1, h1p⟩, h2⟩
      · exact Or.inl h1
      · exact Or.inr ⟨h1.symm, lt_of_le_of_ne h1p h2⟩
    have pB : ((xs.enum.insertionSort posTieRel)).Pairwise
        (fun a b => b.2 < a.2 ∨ (a.2 = b.2 ∧ b.1 < a.1)) := by
      have hs : (xs.enum.insertionSort posTieRel).Pairwise posTieRel :=
        List.sorted_insertionSort _ _
      have hne : (xs.enum.insertionSort posTieRel).Pairwise (fun a b => a.1 ≠ b.1) :=
        List.pairwise_map.mp nodupB
      refine (hs.and hne).imp ?_
      rintro a b ⟨h1 | ⟨h1, h1p⟩, h2⟩
      · exact Or.inl h1
      · exact Or.inr ⟨h1, lt_of_le_of_ne h1p (fun hc => h2 hc.symm)⟩
    exact eq_of_perm_of_pairwise hasym hperm pA pB
  rw [key]

/-- Normal form of a successful `vector_search`: with the store ready, the
dimensions matching, the parallel-array invariant, at least one stored
vector and a positive `limit`, every guard passes and the result is the
shaped lookup of the reversed-argsort prefix. -/
theorem vector_search_eq_ok
    (db : StarDatabase) (e : List (List ℚ)) (ids : List Int) (q : List ℚ) (limit : ℕ)
    (hv : db.vectors = some (e, ids))
    (hdim : ∀ v ∈ e, v.length = q.length)
    (hpar : ids.length = e.length)
    (hN : 1 ≤ e.length) (hk : 1 ≤ limit) :
    StarDatabase.vector_search db q limit = .ok
      (((((argsort (e.map (fun v => dotQ v
            (q.map (fun x => x / Rat.sqrt (normSq q)))))).reverse).take limit).map
          (fun i => (ids.getD i 0,
            (e.map (fun v => dotQ v
              (q.map (fun x => x / Rat.sqrt (normSq q))))).getD i 0))).filterMap
        (fun p => (db.table.find? (fun r => r.id == p.1)).map
          (fun r => r.toVectorResult p.2))) := by
  have hall : e.all (fun v => v.length == q.length) = true := by
    rw [List.all_eq_true]
    intro v hvmem
    exact beq_iff_eq.mpr (hdim v hvmem)
  have hsims_len : (e.map (fun v => dotQ v
      (q.map (fun x => x / Rat.sqrt (normSq q))))).length = e.length :=
    List.length_map _ _
  have htop_len : (((argsort (e.map (fun v => dotQ v
      (q.map (fun x => x / Rat.sqrt (normSq q)))))).reverse).take limit).length
      = min limit e.length := by
    rw [List.length_take, List.length_reverse, length_argsort, hsims_len]
  have htop_mem : ∀ i ∈ ((argsort (e.map (fun v => dotQ v
      (q.map (fun x => x / Rat.sqrt (normSq q)))))).reverse).take limit,
      i < ids.length := by
    intro i hi
    have h1 : i ∈ (argsort (e.map (fun v => dotQ v
        (q.map (fun x => x / Rat.sqrt (normSq q)))))).reverse :=
      List.mem_of_mem_take hi
    have h2 := mem_argsort (List.mem_reverse.mp h1)
    rw [hsims_len] at h2
    rw [hpar]
    exact h2
  have htop_all : (((argsort (e.map (fun v => dotQ v
      (q.map (fun x => x / Rat.sqrt (normSq q)))))).reverse).take limit).all
      (fun i => decide (i < ids.length)) = true := by
    rw [List.all_eq_true]
    intro i hi
    exact decide_eq_true (htop_mem i hi)
  have hne : ((((argsort (e.map (fun v => dotQ v
      (q.map (fun x => x / Rat.sqrt (normSq q)))))).reverse).take limit).map
      (fun i => ids.getD i 0)).isEmpty = false := by
    rw [Bool.eq_false_iff]
    intro hc
    have hnil := List.isEmpty_iff.mp hc
    have hlen0 := congrArg List.length hnil
    rw [List.length_map, htop_len] at hlen0
    have hmin : 1 ≤ min limit e.length := le_min hk hN
    rw [hlen0] at hmin
    exact absurd hmin (by norm_num)
  unfold StarDatabase.vector_search
  rw [hv]
  simp only [hall, htop_all, hne, if_true, Bool.false_eq_true, if_false]
  rw [List.zip_map']

/-! ### Toolkit: evaluation helpers for concrete instances -/

theorem ratSqrt_one : Rat.sqrt 1 = 1 := by
  have h := Rat.sqrt_eq 1
  simpa using h

theorem ratSqrt_zero : Rat.sqrt 0 = 0 := by
  have h := Rat.sqrt_eq 0
  simpa using h

theorem getD_zero {α : Type} (a : α) (l : List α) (d : α) : (a :: l).getD 0 d = a := rfl

theorem getD_one {α : Type} (a b : α) (l : List α) (d : α) : (a :: b :: l).getD 1 d = b := rfl

theorem getElemZero {α : Type} (a : α) (l : List α) (h : 0 < (a :: l).length) :
    (a :: l)[0] = a := rfl

theorem getElemOne {α : Type} (a b : α) (l : List α) (h : 1 < (a :: b :: l).length) :
    (a :: b :: l)[1] = b := rfl

theorem beqFalse {α : Type} [BEq α] [LawfulBEq α] {a b : α} (h : ¬ a = b) :
    (a == b) = false := beq_eq_false_iff_ne.mpr h

theorem beqTrue {α : Type} [BEq α] [LawfulBEq α] {a b : α} (h : a = b) :
    (a == b) = true := beq_iff_eq.mpr h

/-! ### Toolkit: shared facts for the vector-search claims -/

theorem topPos_lt (xs : List ℚ) (limit : ℕ) :
    ∀ i ∈ ((argsort xs).reverse).take limit, i < xs.length := by
  intro i hi
  exact mem_argsort (List.mem_reverse.mp (List.mem_of_mem_take hi))

theorem find_isSome_of_pos (table : List Row) (ids : List Int) (sims : List ℚ)
    (htab : ∀ i ∈ ids, ∃ r ∈ table, r.id = i) (pos : List ℕ)
    (hpos : ∀ i ∈ pos, i < ids.length) :
    ∀ p ∈ pos.map (fun i => (ids.getD i 0, sims.getD i 0)),
      (table.find? (fun r => r.id == p.1)).isSome := by
  intro p hp
  rcases List.mem_map.mp hp with ⟨i, hi, rfl⟩
  have hmem : ids.getD i 0 ∈ ids := by
    rw [List.getD_eq_getElem ids 0 (hpos i hi)]
    exact List.getElem_mem _
  rcases htab _ hmem with ⟨r, hr, hrid⟩
  rw [List.find?_isSome]
  exact ⟨r, hr, by simp [hrid]⟩

theorem topSims_pairwise (xs : List ℚ) (limit : ℕ) :
    ((((argsort xs).reverse).take limit).map (fun i => xs.getD i 0)).Pairwise
      (fun a b => b ≤ a) := by
  have h := (argsort_reverse_pairwise xs).sublist (List.take_sublist limit _)
  rw [List.pairwise_map]
  refine h.imp ?_
  rintro i j (h1 | ⟨h1, _⟩)
  · exact h1.le
  · exact h1.ge

/-- Shared helper: on a ready, populated, dimension-correct store whose
ids all resolve in the metadata table, `vector_search` succeeds and
returns exactly `min limit N` rows. -/
theorem vector_search_ok_length
    (db : StarDatabase) (e : List (List ℚ)) (ids : List Int) (q : List ℚ) (limit : ℕ)
    (hv : db.vectors = some (e, ids))
    (hdim : ∀ v ∈ e, v.length = q.length)
    (hpar : ids.length = e.length)
    (hN : 1 ≤ e.length) (hk : 1 ≤ limit)
    (htab : ∀ i ∈ ids, ∃ r ∈ db.table, r.id = i) :
    ∃ out : List ResultRow,
      StarDatabase.vector_search db q limit = .ok out ∧
      out.length = min limit e.length := by
  rw [vector_search_eq_ok db e ids q limit hv hdim hpar hN hk]
  refine ⟨_, rfl, ?_⟩
  set s := e.map (fun v => dotQ v (q.map (fun x => x / Rat.sqrt (normSq q)))) with hs
  have hslen : s.length = e.length := List.length_map _ _
  have hpos : ∀ i ∈ ((argsort s).reverse).take limit, i < ids.length := by
    intro i hi
    rw [hpar, ← hslen]
    exact topPos_lt s limit i hi
  rw [length_filterMap_of_forall_isSome
    (fun p => (db.table.find? (fun r => r.id == p.1)).map
      (fun r => r.toVectorResult p.2))
    ((((argsort s).reverse).take limit).map (fun i => (ids.getD i 0, s.getD i 0)))
    (by
      intro p hp
      have hfs := find_isSome_of_pos db.table ids s htab _ hpos p hp
      simpa using hfs)]
  rw [List.length_map, List.length_take, List.length_reverse, length_argsort, hslen]

/-! ### Concrete stores used by witnesses and counterexamples -/

/-- Two rows whose stored vectors are identical (a perfect similarity
tie); the row with the larger id (2) is stored at the later position. -/
def cRow1 : Row := ⟨1, "r1", none, "u1", none, [], 0⟩

def cRow2 : Row := ⟨2, "r2", none, "u2", none, [], 0⟩

def cDb : StarDatabase := ⟨[cRow1, cRow2], some ([[1, 0], [1, 0]], [1, 2])⟩

/-- Two rows with distinct stored vectors. -/
def wRow1 : Row := ⟨10, "alpha", some "web framework", "u1", none, [], 7⟩

def wRow2 : Row := ⟨20, "beta", none, "u2", none, [], 3⟩

def wDb : StarDatabase := ⟨[wRow1, wRow2], some ([[1, 0], [0, 1]], [10, 20])⟩

/-! ### Claim C3 -/

/-- C3: for every populated store with `N` vectors and every valid query
vector (matching dimension, nonzero norm; ids resolving in the metadata
table and parallel to the matrix, `k ≥ 1`), the vector top-k operation
returns exactly `min k N` results ordered descending by similarity. -/
theorem vector_search_topk_length_sorted
    (db : StarDatabase) (e : List (List ℚ)) (ids : List Int) (q : List ℚ) (limit : ℕ)
    (hv : db.vectors = some (e, ids))
    (hdim : ∀ v ∈ e, v.length = q.length)
    (hq : normSq q ≠ 0)
    (hpar : ids.length = e.length)
    (hN : 1 ≤ e.length) (hk : 1 ≤ limit)
    (htab : ∀ i ∈ ids, ∃ r ∈ db.table, r.id = i) :
    ∃ out : List ResultRow,
      StarDatabase.vector_search db q limit = .ok out ∧
      out.length = min limit e.length ∧
      ∃ sims : List ℚ, out.map (fun r => r.similarity) = sims.map some ∧
        sims.Pairwise (fun a b => b ≤ a) := by
  rw [vector_search_eq_ok db e ids q limit hv hdim hpar hN hk]
  refine ⟨_, rfl, ?_, ?_⟩
  · set s := e.map (fun v => dotQ v (q.map (fun x => x / Rat.sqrt (normSq q)))) with hs
    have hslen : s.length = e.length := List.length_map _ _
    have hpos : ∀ i ∈ ((argsort s).reverse).take limit, i < ids.length := by
      intro i hi
      rw [hpar, ← hslen]
      exact topPos_lt s limit i hi
    rw [length_filterMap_of_forall_isSome
      (fun p => (db.table.find? (fun r => r.id == p.1)).map
        (fun r => r.toVectorResult p.2))
      ((((argsort s).reverse).take limit).map (fun i => (ids.getD i 0, s.getD i 0)))
      (by
        intro p hp
        have hfs := find_isSome_of_pos db.table ids s htab _ hpos p hp
        simpa using hfs)]
    rw [List.length_map, List.length_take, List.length_reverse, length_argsort, hslen]
  · set s := e.map (fun v => dotQ v (q.map (fun x => x / Rat.sqrt (normSq q)))) with hs
    have hslen : s.length = e.length := List.length_map _ _
    have hpos : ∀ i ∈ ((argsort s).reverse).take limit, i < ids.length := by
      intro i hi
      rw [hpar, ← hslen]
      exact topPos_lt s limit i hi
    refine ⟨(((argsort s).reverse).take limit).map (fun i => s.getD i 0), ?_, ?_⟩
    · rw [simColumn_filterMap db.table _
        (find_isSome_of_pos db.table ids s htab _ hpos)]
      rw [List.map_map, List.map_map]
      rfl
    · exact topSims_pairwise s limit

/-- Witness for C3 at a concrete populated two-vector store. -/
theorem vector_search_topk_length_sorted_witness :
    normSq [(1 : ℚ), 0] ≠ 0 ∧
    (∃ out : List ResultRow,
      StarDatabase.vector_search wDb [1, 0] 1 = .ok out ∧
      out.length = min 1 ([[(1 : ℚ), 0], [0, 1]] : List (List ℚ)).length ∧
      ∃ sims : List ℚ, out.map (fun r => r.similarity) = sims.map some ∧
        sims.Pairwise (fun a b => b ≤ a)) := by
  constructor
  · norm_num [normSq, dotQ]
  · exact vector_search_topk_length_sorted wDb [[1, 0], [0, 1]] [10, 20] [1, 0] 1
      rfl (by decide) (by norm_num [normSq, dotQ]) rfl (by norm_num) (by norm_num)
      (by decide)

/-! ### Claim C4 -/

/-- Modelled from the claim C4 as stated: candidates sorted by dot
product descending with ties broken by ascending entity_id. -/
def idTieRel (a b : Int × ℚ) : Prop := b.2 < a.2 ∨ (a.2 = b.2 ∧ a.1 ≤ b.1)

instance : DecidableRel idTieRel :=
  fun a b => inferInstanceAs (Decidable (b.2 < a.2 ∨ (a.2 = b.2 ∧ a.1 ≤ b.1)))

/-- Modelled from the claim C4 as stated: the independently computed full
sort by dot product (descending), ties by ascending entity_id, truncated
to `k`, shaped like the source's result rows. -/
def vectorTopKSpecById (db : StarDatabase) (q : List ℚ) (limit : ℕ) : List ResultRow :=
  match db.vectors with
  | none => []
  | some (e, ids) =>
    let sims := e.map (fun v => dotQ v (q.map (fun x => x / Rat.sqrt (normSq q))))
    let pairs := ((ids.zip sims).insertionSort idTieRel).take limit
    pairs.filterMap (fun p => (db.table.find? (fun r => r.id == p.1)).map
      (fun r => r.toVectorResult p.2))

/-- C4 counterexample: on a store with two identical vectors (ids 1 and
2 in storage order), the source ranks id 2 first, while the claim's
id-ascending tie-break ranks id 1 first; the claim's equality fails. -/
theorem vector_search_tie_not_by_id_cex :
    StarDatabase.vector_search cDb [1, 0] 2 =
      .ok [Row.toVectorResult cRow2 1, Row.toVectorResult cRow1 1] ∧
    vectorTopKSpecById cDb [1, 0] 2 =
      [Row.toVectorResult cRow1 1, Row.toVectorResult cRow2 1] ∧
    ¬ StarDatabase.vector_search cDb [1, 0] 2 =
      .ok (vectorTopKSpecById cDb [1, 0] 2) := by
  refine ⟨?_, ?_, ?_⟩
  · norm_num [StarDatabase.vector_search, cDb, argsort, ascRel, List.insertionSort,
      List.orderedInsert, dotQ, normSq, ratSqrt_one, cRow1, cRow2, Row.toVectorResult,
      getD_zero, getD_one, getElemZero, getElemOne, List.filterMap_cons, List.find?,
      beqFalse, beqTrue]
  · norm_num [vectorTopKSpecById, cDb, idTieRel, List.insertionSort,
      List.orderedInsert, dotQ, normSq, ratSqrt_one, cRow1, cRow2, Row.toVectorResult,
      List.filterMap_cons, List.find?, beqFalse, beqTrue]
  · norm_num [StarDatabase.vector_search, vectorTopKSpecById, cDb, argsort, ascRel,
      idTieRel, List.insertionSort, List.orderedInsert, dotQ, normSq, ratSqrt_one,
      cRow1, cRow2, Row.toVectorResult, getD_zero, getD_one, getElemZero, getElemOne,
      List.filterMap_cons, List.find?, beqFalse, beqTrue]
    all_goals decide

/-- Modelled from the claim C4 as amended: the independently computed
full sort by dot product (descending), with ties broken by descending
storage position (the reversal of a stable ascending sort), truncated. -/
def vectorTopKSpecByPos (db : StarDatabase) (q : List ℚ) (limit : ℕ) : List ResultRow :=
  match db.vectors with
  | none => []
  | some (e, ids) =>
    let sims := e.map (fun v => dotQ v (q.map (fun x => x / Rat.sqrt (normSq q))))
    let top := ((sims.enum.insertionSort posTieRel).map Prod.fst).take limit
    (top.map (fun i => (ids.getD i 0, sims.getD i 0))).filterMap
      (fun p => (db.table.find? (fun r => r.id == p.1)).map
        (fun r => r.toVectorResult p.2))

/-- C4 amended: whenever two stored vectors have equal similarity the one
at the larger storage position is ranked first, so the output equals an
independently computed full sort by dot product (descending) with ties
broken by descending storage position, truncated to `k`. -/
theorem vector_search_tie_by_reverse_position
    (db : StarDatabase) (e : List (List ℚ)) (ids : List Int) (q : List ℚ) (limit : ℕ)
    (hv : db.vectors = some (e, ids))
    (hdim : ∀ v ∈ e, v.length = q.length)
    (hq : normSq q ≠ 0)
    (hpar : ids.length = e.length)
    (hN : 1 ≤ e.length) (hk : 1 ≤ limit) :
    StarDatabase.vector_search db q limit = .ok (vectorTopKSpecByPos db q limit) := by
  rw [vector_search_eq_ok db e ids q limit hv hdim hpar hN hk]
  simp only [vectorTopKSpecByPos, hv]
  rw [← argsort_reverse_eq_posTie]

/-- Witness for the amended C4 at the concrete tied store. -/
theorem vector_search_tie_by_reverse_position_witness :
    normSq [(1 : ℚ), 0] ≠ 0 ∧
    StarDatabase.vector_search cDb [1, 0] 2 = .ok (vectorTopKSpecByPos cDb [1, 0] 2) := by
  constructor
  · norm_num [normSq, dotQ]
  · exact vector_search_tie_by_reverse_position cDb [[1, 0], [1, 0]] [1, 2] [1, 0] 2
      rfl (by decide) (by norm_num [normSq, dotQ]) rfl (by norm_num) (by norm_num)

/-! ### Claim C5 -/

/-- C5 counterexample: a query vector of L2 norm zero still produces
`min k N = 2` results (at runtime with NaN similarities; division by the
norm is performed unconditionally), not the empty result the claim
requires. -/
theorem vector_search_zero_norm_not_empty_cex :
    (StarDatabase.vector_search cDb [0, 0] 3).map List.length = .ok 2 ∧
    StarDatabase.vector_search cDb [0, 0] 3 ≠ .ok [] := by
  have h1 : (StarDatabase.vector_search cDb [0, 0] 3).map List.length = .ok 2 := by
    norm_num [StarDatabase.vector_search, cDb, argsort, ascRel, List.insertionSort,
      List.orderedInsert, dotQ, normSq, ratSqrt_zero, cRow1, cRow2, Row.toVectorResult,
      getD_zero, getD_one, getElemZero, getElemOne, List.filterMap_cons, List.find?,
      beqFalse, beqTrue, Except.map]
  refine ⟨h1, ?_⟩
  intro hc
  rw [hc] at h1
  simp [Except.map] at h1

/-- C5 amended: the source has no zero-norm guard; it divides by the norm
unconditionally, and a zero-norm query still returns `min k N` results
(whose runtime similarities are NaN; 0 in this exact model) rather than
the empty result. -/
theorem vector_search_zero_norm_returns_results
    (db : StarDatabase) (e : List (List ℚ)) (ids : List Int) (q : List ℚ) (limit : ℕ)
    (hv : db.vectors = some (e, ids))
    (hdim : ∀ v ∈ e, v.length = q.length)
    (hq0 : normSq q = 0)
    (hpar : ids.length = e.length)
    (hN : 1 ≤ e.length) (hk : 1 ≤ limit)
    (htab : ∀ i ∈ ids, ∃ r ∈ db.table, r.id = i) :
    ∃ out : List ResultRow,
      StarDatabase.vector_search db q limit = .ok out ∧
      out.length = min limit e.length :=
  vector_search_ok_length db e ids q limit hv hdim hpar hN hk htab

/-- Witness for the amended C5 at a concrete zero-norm query. -/
theorem vector_search_zero_norm_returns_results_witness :
    normSq [(0 : ℚ), 0] = 0 ∧
    (∃ out : List ResultRow,
      StarDatabase.vector_search cDb [0, 0] 3 = .ok out ∧
      out.length = min 3 ([[(1 : ℚ), 0], [1, 0]] : List (List ℚ)).length) := by
  constructor
  · norm_num [normSq, dotQ]
  · exact vector_search_zero_norm_returns_results cDb [[1, 0], [1, 0]] [1, 2] [0, 0] 3
      rfl (by decide) (by norm_num [normSq, dotQ]) rfl (by norm_num) (by norm_num)
      (by decide)

/-! ### Claim C6 -/

/-- C6: querying a populated store with a query vector whose length
disagrees with the stored matrix width fails with the distinct
dimension-mismatch condition (the NumPy matmul shape error); the vector
is never silently truncated or padded into a result. -/
theorem vector_search_dim_mismatch
    (db : StarDatabase) (e : List (List ℚ)) (ids : List Int) (q : List ℚ) (limit : ℕ)
    (hv : db.vectors = some (e, ids))
    (hbad : ∃ v ∈ e, v.length ≠ q.length) :
    StarDatabase.vector_search db q limit = .error .dimMismatch := by
  unfold StarDatabase.vector_search
  rw [hv]
  have hall : e.all (fun v => v.length == q.length) = false := by
    rw [List.all_eq_false]
    rcases hbad with ⟨v, hvm, hne⟩
    exact ⟨v, hvm, by simpa using hne⟩
  simp only [hall, Bool.false_eq_true, if_false]

/-- Witness for C6: a width-2 store queried with a length-3 vector. -/
theorem vector_search_dim_mismatch_witness :
    (∃ v ∈ ([[(1 : ℚ), 0], [1, 0]] : List (List ℚ)), v.length ≠ ([(1 : ℚ), 0, 0]).length) ∧
    StarDatabase.vector_search cDb [1, 0, 0] 2 = .error .dimMismatch := by
  constructor
  · decide
  · exact vector_search_dim_mismatch cDb [[1, 0], [1, 0]] [1, 2] [1, 0, 0] 2 rfl
      (by decide)

/-! ### Claim C7 -/

theorem containsC_nil (s : List Char) : containsC [] s = true := by
  cases s with
  | nil => rfl
  | cons c rest => simp [containsC, startsC]

theorem lowerChars_empty : lowerChars "" = [] := rfl

/-- The empty keyword matches every row (`ILIKE '%%'` matches any
non-NULL `full_name`). -/
theorem rowMatches_empty (r : Row) : rowMatches "" r = true := by
  rw [rowMatches, lowerChars_empty, containsC_nil]
  rfl

/-- Rows with equal popularity, the larger id stored first. -/
def kRowB : Row := ⟨5, "b", none, "ub", none, [], 10⟩

def kRowA : Row := ⟨3, "a", none, "ua", none, [], 10⟩

def kDb : StarDatabase := ⟨[kRowB, kRowA], none⟩

/-- Modelled from the claim C7 as stated: matching rows ordered by
descending popularity with ties broken by ascending entity_id. -/
def kwIdTieRel (a b : Row) : Prop :=
  b.stargazers_count < a.stargazers_count ∨
    (a.stargazers_count = b.stargazers_count ∧ a.id ≤ b.id)

instance : DecidableRel kwIdTieRel :=
  fun a b => inferInstanceAs (Decidable (b.stargazers_count < a.stargazers_count ∨
    (a.stargazers_count = b.stargazers_count ∧ a.id ≤ b.id)))

/-- Modelled from the claim C7 as stated: the keyword search result with
the id-ascending tie-break. -/
def keywordSpecById (db : StarDatabase) (kw : String) (limit : ℕ) : List ResultRow :=
  (((db.table.filter (rowMatches kw)).insertionSort kwIdTieRel).take limit).map
    Row.toKeywordResult

/-- C7 counterexample: two rows of equal popularity inserted with the
larger id first; the SQL `ORDER BY stargazers_count DESC` has no id
tie-break, so the source returns them in storage order (larger id first),
while the claim demands the smaller id first. -/
theorem keyword_search_tie_not_by_id_cex :
    StarDatabase.keyword_search kDb "" 2 =
      [Row.toKeywordResult kRowB, Row.toKeywordResult kRowA] ∧
    keywordSpecById kDb "" 2 =
      [Row.toKeywordResult kRowA, Row.toKeywordResult kRowB] ∧
    kRowA.id < kRowB.id ∧ kRowA.stargazers_count = kRowB.stargazers_count ∧
    ¬ StarDatabase.keyword_search kDb "" 2 = keywordSpecById kDb "" 2 := by
  have h1 : StarDatabase.keyword_search kDb "" 2 =
      [Row.toKeywordResult kRowB, Row.toKeywordResult kRowA] := by
    norm_num [StarDatabase.keyword_search, kDb, kRowA, kRowB, stableSortDesc,
      sortedEnum, descRel, List.insertionSort, List.orderedInsert, rowMatches_empty,
      Row.toKeywordResult, List.enum, List.enumFrom, List.filter_cons]
  have h2 : keywordSpecById kDb "" 2 =
      [Row.toKeywordResult kRowA, Row.toKeywordResult kRowB] := by
    norm_num [keywordSpecById, kDb, kRowA, kRowB, kwIdTieRel, List.insertionSort,
      List.orderedInsert, rowMatches_empty, Row.toKeywordResult, List.filter_cons]
  refine ⟨h1, h2, by norm_num [kRowA, kRowB], by norm_num [kRowA, kRowB], ?_⟩
  intro hc
  rw [h1, h2] at hc
  exact absurd hc (by decide)

/-- Comparison of the amended C7: descending popularity, ties kept in
storage order (the stable sort the row store actually performs). -/
def kwPosTieRel (a b : ℕ × Row) : Prop :=
  b.2.stargazers_count < a.2.stargazers_count ∨
    (a.2.stargazers_count = b.2.stargazers_count ∧ a.1 ≤ b.1)

instance : DecidableRel kwPosTieRel :=
  fun a b => inferInstanceAs (Decidable (b.2.stargazers_count < a.2.stargazers_count ∨
    (a.2.stargazers_count = b.2.stargazers_count ∧ a.1 ≤ b.1)))

instance : IsTotal (ℕ × Row) kwPosTieRel := by
  constructor
  intro a b
  rcases lt_trichotomy a.2.stargazers_count b.2.stargazers_count with h | h | h
  · exact Or.inr (Or.inl h)
  · rcases Nat.le_total a.1 b.1 with h1 | h1
    · exact Or.inl (Or.inr ⟨h, h1⟩)
    · exact Or.inr (Or.inr ⟨h.symm, h1⟩)
  · exact Or.inl (Or.inl h)

instance : IsTrans (ℕ × Row) kwPosTieRel := by
  constructor
  intro a b c hab hbc
  rcases hab with h1 | ⟨h1, h1p⟩
  · rcases hbc with h2 | ⟨h2, _⟩
    · exact Or.inl (h2.trans h1)
    · exact Or.inl (h2 ▸ h1)
  · rcases hbc with h2 | ⟨h2, h2p⟩
    · exact Or.inl (h1 ▸ h2)
    · exact Or.inr ⟨h1.trans h2, h1p.trans h2p⟩

/-- Modelled from the claim C7 as amended: matching rows sorted by
(popularity descending, storage position ascending), truncated, shaped. -/
def keywordSpecStable (db : StarDatabase) (kw : String) (limit : ℕ) : List ResultRow :=
  ((((db.table.filter (rowMatches kw)).enum.insertionSort kwPosTieRel).map
    Prod.snd).take limit).map Row.toKeywordResult

/-- C7 amended: the lexical search orders candidates by descending
popularity; candidates of equal popularity appear in the row store's
storage order (the SQL has no entity_id tie-break), and the output is
pairwise weakly descending in `stargazers_count`. -/
theorem keyword_search_desc_stars_stable (db : StarDatabase) (kw : String) (limit : ℕ) :
    StarDatabase.keyword_search db kw limit = keywordSpecStable db kw limit ∧
    (StarDatabase.keyword_search db kw limit).Pairwise
      (fun a b => b.stargazers_count ≤ a.stargazers_count) := by
  have key : sortedEnum (fun r => (r.stargazers_count : ℚ))
      (db.table.filter (rowMatches kw)) =
      (db.table.filter (rowMatches kw)).enum.insertionSort kwPosTieRel := by
    set F := db.table.filter (rowMatches kw) with hF
    have hperm : List.Perm (sortedEnum (fun r => (r.stargazers_count : ℚ)) F)
        (F.enum.insertionSort kwPosTieRel) :=
      (sortedEnum_perm _ F).trans (List.perm_insertionSort kwPosTieRel F.enum).symm
    have hasym : ∀ a b : ℕ × Row,
        (b.2.stargazers_count < a.2.stargazers_count ∨
          (a.2.stargazers_count = b.2.stargazers_count ∧ a.1 < b.1)) →
        ¬ (a.2.stargazers_count < b.2.stargazers_count ∨
          (b.2.stargazers_count = a.2.stargazers_count ∧ b.1 < a.1)) := by
      rintro a b (h1 | ⟨h1, h1p⟩) (h2 | ⟨h2, h2p⟩)
      · exact absurd h2 (not_lt.mpr h1.le)
      · exact absurd h2.symm (ne_of_gt h1)
      · exact absurd h2 (not_lt.mpr h1.ge)
      · exact absurd h2p (not_lt.mpr h1p.le)
    have pA : (sortedEnum (fun r => (r.stargazers_count : ℚ)) F).Pairwise
        (fun a b => b.2.stargazers_count < a.2.stargazers_count ∨
          (a.2.stargazers_count = b.2.stargazers_count ∧ a.1 < b.1)) := by
      refine (sortedEnum_pairwise_strict _ F).imp ?_
      rintro a b (h1 | ⟨h1, h1p⟩)
      · exact Or.inl (by exact_mod_cast h1)
      · exact Or.inr ⟨by exact_mod_cast h1, h1p⟩
    have pB : (F.enum.insertionSort kwPosTieRel).Pairwise
        (fun a b => b.2.stargazers_count < a.2.stargazers_count ∨
          (a.2.stargazers_count = b.2.stargazers_count ∧ a.1 < b.1)) := by
      have hs : (F.enum.insertionSort kwPosTieRel).Pairwise kwPosTieRel :=
        List.sorted_insertionSort _ _
      have hne : (F.enum.insertionSort kwPosTieRel).Pairwise (fun a b => a.1 ≠ b.1) :=
        List.pairwise_map.mp
          ((((List.perm_insertionSort kwPosTieRel F.enum).map Prod.fst).nodup_iff).mpr
            (List.nodup_enum_map_fst F))
      refine (hs.and hne).imp ?_
      rintro a b ⟨h1 | ⟨h1, h1p⟩, h2⟩
      · exact Or.inl h1
      · exact Or.inr ⟨h1, lt_of_le_of_ne h1p h2⟩
    exact eq_of_perm_of_pairwise hasym hperm pA pB
  constructor
  · unfold StarDatabase.keyword_search keywordSpecStable stableSortDesc
    rw [key]
  · unfold StarDatabase.keyword_search stableSortDesc
    rw [List.pairwise_map]
    have hp : (sortedEnum (fun r => (r.stargazers_count : ℚ))
        (db.table.filter (rowMatches kw))).Pairwise
        (fun a b => b.2.stargazers_count ≤ a.2.stargazers_count) := by
      refine (sortedEnum_sorted _ _).imp ?_
      rintro a b (h1 | ⟨h1, _⟩)
      · have h2 : ((b.2.stargazers_count : ℚ)) ≤ ((a.2.stargazers_count : ℚ)) := h1.le
        exact_mod_cast h2
      · have h2 : ((b.2.stargazers_count : ℚ)) ≤ ((a.2.stargazers_count : ℚ)) := h1.ge
        exact_mod_cast h2
    have hp2 : ((sortedEnum (fun r => (r.stargazers_count : ℚ))
        (db.table.filter (rowMatches kw))).map Prod.snd).Pairwise
        (fun a b => b.stargazers_count ≤ a.stargazers_count) := by
      rw [List.pairwise_map]
      exact hp
    have hp3 := hp2.sublist (List.take_sublist limit _)
    exact hp3.imp (fun h => h)

/-! ### Claim C2 -/

theorem length_keyword_search_empty (db : StarDatabase) (limit : ℕ) :
    (HybridSearcher.keyword_search db "" limit).length = min limit db.table.length := by
  unfold HybridSearcher.keyword_search StarDatabase.keyword_search
  rw [List.length_map, List.length_map, List.length_take, length_stableSortDesc]
  congr 1
  rw [List.filter_eq_self.mpr]
  intro r _
  exact rowMatches_empty r

theorem length_fuse (w : ℚ) (limit : ℕ) (sem kw : List ResultRow) :
    (HybridSearcher.fuse w limit sem kw).length =
      min limit (firstSeen (sem.map (fun r => r.full_name) ++
        kw.map (fun r => r.full_name))).length := by
  unfold HybridSearcher.fuse
  rw [List.length_map, List.length_take, length_stableSortDesc]
  congr 1
  have hkeys := congrArg List.length (keys_buildScores w sem kw)
  rwa [List.length_map] at hkeys

theorem firstSeen_ne_nil {ks : List String} (h : ks ≠ []) : firstSeen ks ≠ [] := by
  rcases List.exists_mem_of_ne_nil ks h with ⟨k, hk⟩
  intro hc
  have hmem := mem_firstSeen.mpr hk
  rw [hc] at hmem
  cases hmem

/-- With a nonempty keyword sub-result and a positive limit, the fused
output is nonempty. -/
theorem fuse_ne_nil (w : ℚ) (limit : ℕ) (sem kw : List ResultRow)
    (hkw : kw ≠ []) (hk : 1 ≤ limit) :
    HybridSearcher.fuse w limit sem kw ≠ [] := by
  intro hc
  have hlen := congrArg List.length hc
  rw [length_fuse, List.length_nil] at hlen
  rcases List.exists_mem_of_ne_nil _ hkw with ⟨r, hr⟩
  have hmem : r.full_name ∈ firstSeen (sem.map (fun rr => rr.full_name) ++
      kw.map (fun rr => rr.full_name)) :=
    mem_firstSeen.mpr (List.mem_append.mpr (Or.inr (List.mem_map_of_mem _ hr)))
  have hpos := List.length_pos.mpr (List.ne_nil_of_mem hmem)
  have hmin : 1 ≤ min limit (firstSeen (sem.map (fun rr => rr.full_name) ++
      kw.map (fun rr => rr.full_name))).length := le_min hk hpos
  rw [hlen] at hmin
  exact absurd hmin (by norm_num)

/-- C2 amended: on a ready, populated store the empty query is not an
error, but neither is it normalized to an empty result: the empty
keyword matches every row as a substring, so the fused search returns a
nonempty result list. -/
theorem search_empty_query_nonempty
    (db : StarDatabase) (emb : String → List ℚ) (e : List (List ℚ)) (ids : List Int)
    (limit : ℕ) (w : ℚ)
    (hv : db.vectors = some (e, ids))
    (hdim : ∀ v ∈ e, v.length = (emb "").length)
    (hpar : ids.length = e.length)
    (hN : 1 ≤ e.length) (hk : 1 ≤ limit)
    (htable : db.table ≠ []) :
    ∃ out : List ResultRow,
      HybridSearcher.search db emb "" "hybrid" limit w = .ok out ∧ out ≠ [] := by
  have hmode : HybridSearcher.search db emb "" "hybrid" limit w =
      HybridSearcher.hybrid_search db emb "" limit w := by
    unfold HybridSearcher.search
    rw [if_neg (by decide), if_neg (by decide)]
  rw [hmode]
  unfold HybridSearcher.hybrid_search
  rw [HybridSearcher.semantic_search,
    vector_search_eq_ok db e ids (emb "") (limit * 2) hv hdim hpar hN (by omega)]
  simp only [Except.map]
  refine ⟨_, rfl, ?_⟩
  have hkw : HybridSearcher.keyword_search db "" (limit * 2) ≠ [] := by
    intro hc2
    have hl2 := congrArg List.length hc2
    rw [length_keyword_search_empty, List.length_nil] at hl2
    have htl : 1 ≤ db.table.length := List.length_pos.mpr htable
    have hmin : 1 ≤ min (limit * 2) db.table.length := le_min (by omega) htl
    rw [hl2] at hmin
    exact absurd hmin (by norm_num)
  exact fuse_ne_nil w limit _ _ hkw hk

/-- A constant embedding function for concrete runs. -/
def embW : String → List ℚ := fun _ => [1, 0]

theorem strNe1 : ("hybrid" = "semantic") = False := by simp

theorem strNe2 : ("hybrid" = "keyword") = False := by simp

theorem strNe3 : ("alpha" = "beta") = False := by simp

theorem strNe4 : ("beta" = "alpha") = False := by simp

/-- C2 counterexample: on a populated two-row store, the fused search for
the empty query returns both rows (the empty keyword matches every row),
not the empty sequence the claim demands. -/
theorem search_empty_query_not_empty_cex :
    (HybridSearcher.search wDb embW "" "hybrid" 10 (7 / 10)).map List.length = .ok 2 ∧
    HybridSearcher.search wDb embW "" "hybrid" 10 (7 / 10) ≠ .ok [] := by
  have h1 : (HybridSearcher.search wDb embW "" "hybrid" 10 (7 / 10)).map
      List.length = .ok 2 := by
    norm_num [HybridSearcher.search, HybridSearcher.hybrid_search,
      HybridSearcher.semantic_search, HybridSearcher.keyword_search,
      HybridSearcher.fuse, HybridSearcher.buildScores, HybridSearcher.semStep,
      HybridSearcher.kwStep, updateScore, hasKey, StarDatabase.vector_search,
      StarDatabase.keyword_search, stableSortDesc, sortedEnum, descRel, argsort,
      ascRel, List.insertionSort, List.orderedInsert, dotQ, normSq, ratSqrt_one,
      embW, wDb, wRow1, wRow2, rowMatches_empty, Row.toVectorResult,
      Row.toKeywordResult, getD_zero, getD_one, getElemZero, getElemOne,
      List.filterMap_cons, List.find?, beqFalse, beqTrue, List.enum, List.enumFrom,
      List.filter_cons, Except.map, strNe1, strNe2, strNe3, strNe4]
  refine ⟨h1, ?_⟩
  intro hc
  rw [hc] at h1
  simp [Except.map] at h1

/-- Witness for the amended C2 on the populated two-row store. -/
theorem search_empty_query_nonempty_witness :
    wDb.table ≠ [] ∧
    (∃ out : List ResultRow,
      HybridSearcher.search wDb embW "" "hybrid" 10 (7 / 10) = .ok out ∧ out ≠ []) := by
  constructor
  · decide
  · exact search_empty_query_nonempty wDb embW [[1, 0], [0, 1]] [10, 20] 10 (7 / 10)
      rfl (by decide) rfl (by norm_num) (by norm_num) (by decide)

/-! ### Claim C10 -/

/-- C10: every mode string other than "semantic" and "keyword" — not
only "hybrid" — dispatches to the fused/hybrid path; no mode value is
rejected as invalid. -/
theorem search_mode_fallback_hybrid
    (db : StarDatabase) (emb : String → List ℚ) (query mode : String)
    (limit : ℕ) (w : ℚ)
    (h1 : mode ≠ "semantic") (h2 : mode ≠ "keyword") :
    HybridSearcher.search db emb query mode limit w =
      HybridSearcher.hybrid_search db emb query limit w := by
  unfold HybridSearcher.search
  rw [if_neg h1, if_neg h2]

/-- Witness for C10: a misspelled mode falls back to the hybrid path. -/
theorem search_mode_fallback_hybrid_witness :
    ("hybird" ≠ "semantic") ∧ ("hybird" ≠ "keyword") ∧
    HybridSearcher.search wDb embW "x" "hybird" 3 (7 / 10) =
      HybridSearcher.hybrid_search wDb embW "x" 3 (7 / 10) :=
  ⟨by decide, by decide,
    search_mode_fallback_hybrid wDb embW "x" "hybird" 3 (7 / 10)
      (by decide) (by decide)⟩

/-! ### Claim C9 -/

/-- The RRF contribution of one list to the identity at its head is at
least `wt / 61` when `wt` is nonnegative. -/
theorem rrf_sum_head_le (wt : ℚ) (hwt : 0 ≤ wt) (r : ResultRow)
    (rest : List ResultRow) (A : String) (hr : r.full_name = A) :
    wt / 61 ≤ (((r :: rest).enum.filter (fun p => p.2.full_name == A)).map
      (fun p => wt / (60 + (p.1 : ℚ) + 1))).sum := by
  have hnn : ∀ x ∈ (((r :: rest).enum.filter (fun p => p.2.full_name == A)).map
      (fun p => wt / (60 + (p.1 : ℚ) + 1))), 0 ≤ x := by
    intro x hx
    rcases List.mem_map.mp hx with ⟨p, _, rfl⟩
    have hd : (0 : ℚ) < 60 + (p.1 : ℚ) + 1 := by positivity
    exact div_nonneg hwt hd.le
  have hmem : wt / (60 + ((0 : ℕ) : ℚ) + 1) ∈
      (((r :: rest).enum.filter (fun p => p.2.full_name == A)).map
        (fun p => wt / (60 + (p.1 : ℚ) + 1))) := by
    refine List.mem_map.mpr ⟨((0 : ℕ), r), ?_, rfl⟩
    refine List.mem_filter.mpr ⟨?_, ?_⟩
    · rw [List.enum_cons]
      exact List.mem_cons_self _ _
    · simpa using hr
  have hle := List.single_le_sum hnn _ hmem
  calc wt / 61 = wt / (60 + ((0 : ℕ) : ℚ) + 1) := by norm_num
  _ ≤ _ := hle

/-- The RRF contribution of one list to an identity that occurs only at
its head is exactly `wt / 61`. -/
theorem rrf_sum_single (wt : ℚ) (r : ResultRow) (rest : List ResultRow)
    (B : String) (hr : r.full_name = B)
    (habs : B ∉ rest.map (fun x => x.full_name)) :
    (((r :: rest).enum.filter (fun p => p.2.full_name == B)).map
      (fun p => wt / (60 + (p.1 : ℚ) + 1))).sum = wt / 61 := by
  rw [List.enum_cons, List.filter_cons]
  have htail : (rest.enumFrom 1).filter (fun p => p.2.full_name == B) = [] := by
    rw [List.filter_eq_nil_iff]
    intro p hp
    have hmem : p.2 ∈ rest := by
      have := List.mem_map_of_mem Prod.snd hp
      rwa [List.enumFrom_map_snd] at this
    intro hc
    exact habs (by
      refine List.mem_map.mpr ⟨p.2, hmem, ?_⟩
      simpa using hc)
  rw [htail]
  have hcond : ((((0 : ℕ), r) : ℕ × ResultRow).2.full_name == B) = true := by
    simpa using hr
  rw [hcond]
  simp
  norm_num

/-- The RRF contribution of one list to an identity absent from it is 0. -/
theorem rrf_sum_absent (wt : ℚ) (l : List ResultRow) (B : String)
    (habs : B ∉ l.map (fun x => x.full_name)) :
    ((l.enum.filter (fun p => p.2.full_name == B)).map
      (fun p => wt / (60 + (p.1 : ℚ) + 1))).sum = 0 := by
  have hnil : l.enum.filter (fun p => p.2.full_name == B) = [] := by
    rw [List.filter_eq_nil_iff]
    intro p hp
    have hmem : p.2 ∈ l := by
      have := List.mem_map_of_mem Prod.snd hp
      rwa [List.enum_map_snd] at this
    intro hc
    exact habs (by
      refine List.mem_map.mpr ⟨p.2, hmem, ?_⟩
      simpa using hc)
  rw [hnil]
  rfl

/-- C9: for every `semantic_weight` strictly between 0 and 1, an entity
at rank #1 of both fusion input lists accumulates a strictly higher RRF
score than an entity that sits at rank #1 of exactly one of the two
lists of its own run and is absent from the other. -/
theorem rrf_double_first_outranks_single_first
    (w : ℚ) (hw0 : 0 < w) (hw1 : w < 1)
    (semA kwA semB kwB : List ResultRow) (A B : String)
    (hA1 : ∃ r rest, semA = r :: rest ∧ r.full_name = A)
    (hA2 : ∃ r rest, kwA = r :: rest ∧ r.full_name = A)
    (hB : (∃ r rest, semB = r :: rest ∧ r.full_name = B ∧
            B ∉ rest.map (fun x => x.full_name) ∧
            B ∉ kwB.map (fun x => x.full_name)) ∨
          (∃ r rest, kwB = r :: rest ∧ r.full_name = B ∧
            B ∉ rest.map (fun x => x.full_name) ∧
            B ∉ semB.map (fun x => x.full_name))) :
    rrfScoreSpec w semB kwB B < rrfScoreSpec w semA kwA A := by
  have hA : 1 / 61 ≤ rrfScoreSpec w semA kwA A := by
    rcases hA1 with ⟨r1, rest1, rfl, hr1⟩
    rcases hA2 with ⟨r2, rest2, rfl, hr2⟩
    unfold rrfScoreSpec
    have h1 := rrf_sum_head_le w hw0.le r1 rest1 A hr1
    have h2 := rrf_sum_head_le (1 - w) (by linarith) r2 rest2 A hr2
    calc (1 : ℚ) / 61 = w / 61 + (1 - w) / 61 := by ring
    _ ≤ _ := add_le_add h1 h2
  have hBlt : rrfScoreSpec w semB kwB B < 1 / 61 := by
    rcases hB with ⟨r, rest, rfl, hr, habs1, habs2⟩ | ⟨r, rest, rfl, hr, habs1, habs2⟩
    · unfold rrfScoreSpec
      rw [rrf_sum_single w r rest B hr habs1, rrf_sum_absent (1 - w) _ B habs2]
      have hlt : w / 61 < 1 / 61 := by
        rw [div_lt_div_iff (by norm_num) (by norm_num)]
        linarith
      linarith
    · unfold rrfScoreSpec
      rw [rrf_sum_single (1 - w) r rest B hr habs1, rrf_sum_absent w _ B habs2]
      have hlt : (1 - w) / 61 < 1 / 61 := by
        rw [div_lt_div_iff (by norm_num) (by norm_num)]
        linarith
      linarith
  exact lt_of_lt_of_le hBlt hA

/-- Concrete result rows used by the fusion witnesses. -/
def fRowA : ResultRow := ⟨"alpha", none, "ua", none, [], 5, some 1, "semantic"⟩

def fRowB : ResultRow := ⟨"beta", none, "ub", none, [], 3, none, "keyword"⟩

/-- Witness for C9 with `w = 1/2`: "alpha" heads both lists of its run,
"beta" heads only the semantic list of its own run. -/
theorem rrf_double_first_outranks_single_first_witness :
    (0 : ℚ) < 1 / 2 ∧ (1 : ℚ) / 2 < 1 ∧
    rrfScoreSpec (1 / 2) [fRowB] [] "beta" <
      rrfScoreSpec (1 / 2) [fRowA] [fRowA] "alpha" := by
  refine ⟨by norm_num, by norm_num, ?_⟩
  exact rrf_double_first_outranks_single_first (1 / 2) (by norm_num) (by norm_num)
    [fRowA] [fRowA] [fRowB] [] "alpha" "beta"
    ⟨fRowA, [], rfl, rfl⟩ ⟨fRowA, [], rfl, rfl⟩
    (Or.inl ⟨fRowB, [], rfl, rfl, by decide, by decide⟩)

/-! ### Claim C1 -/

/-- A successful `vector_search` returns at most `limit` rows. -/
theorem vector_search_length_le (db : StarDatabase) (q : List ℚ) (limit : ℕ)
    (out : List ResultRow)
    (h : StarDatabase.vector_search db q limit = .ok out) : out.length ≤ limit := by
  unfold StarDatabase.vector_search at h
  cases hv : db.vectors with
  | none =>
    rw [hv] at h
    cases h
  | some pair =>
    rw [hv] at h
    obtain ⟨e, ids⟩ := pair
    simp only at h
    split at h
    case isFalse => cases h
    case isTrue =>
      split at h
      case isFalse => cases h
      case isTrue =>
        split at h
        case isTrue => cases h
        case isFalse =>
          injection h with h2
          subst h2
          refine le_trans (List.length_filterMap_le _ _) ?_
          rw [List.length_zip, List.length_map, List.length_map, List.length_take]
          exact le_trans (min_le_left _ _) (min_le_left _ _)

/-- The searcher's keyword sub-search returns at most `limit` rows. -/
theorem keyword_search_length_le (db : StarDatabase) (q : String) (limit : ℕ) :
    (HybridSearcher.keyword_search db q limit).length ≤ limit := by
  unfold HybridSearcher.keyword_search StarDatabase.keyword_search
  rw [List.length_map, List.length_map, List.length_take]
  exact min_le_left _ _

/-- C1: in fused mode the search obtains a vector list and a lexical
list of length at most `2 × limit` each, accumulates for every rank `r`
of each list the contribution `weight / (60 + r + 1)` keyed by the
candidate's `full_name` (weights `w` and `1 − w`), and returns the data
snapshots ordered by descending accumulated score truncated to `limit`:
the output is the `limit`-prefix of a list of accumulator entries that
carries exactly the spec-level RRF scores, covers exactly the candidate
names of both lists, and is sorted by weakly descending score. -/
theorem hybrid_search_implements_rrf
    (db : StarDatabase) (emb : String → List ℚ) (q : String) (w : ℚ) (limit : ℕ)
    (sem : List ResultRow)
    (hsem : HybridSearcher.semantic_search db emb q (limit * 2) = .ok sem) :
    sem.length ≤ 2 * limit ∧
    (HybridSearcher.keyword_search db q (limit * 2)).length ≤ 2 * limit ∧
    ∃ es : List FuseEntry,
      HybridSearcher.hybrid_search db emb q limit w =
        .ok ((es.take limit).map (fun e => e.data)) ∧
      List.Perm (es.map (fun e => e.key))
        (firstSeen (sem.map (fun r => r.full_name) ++
          (HybridSearcher.keyword_search db q (limit * 2)).map
            (fun r => r.full_name))) ∧
      (∀ e ∈ es, e.score = rrfScoreSpec w sem
        (HybridSearcher.keyword_search db q (limit * 2)) e.key ∧
        e.data.full_name = e.key) ∧
      es.Pairwise (fun a b => b.score ≤ a.score) := by
  have hsemlen : sem.length ≤ 2 * limit := by
    obtain ⟨out0, hout0, hmap⟩ :
        ∃ out0, StarDatabase.vector_search db (emb q) (limit * 2) = .ok out0 ∧
          sem = out0.map (fun r => { r with match_type := "semantic" }) := by
      unfold HybridSearcher.semantic_search at hsem
      cases hv : StarDatabase.vector_search db (emb q) (limit * 2) with
      | error err =>
        rw [hv] at hsem
        cases hsem
      | ok o =>
        rw [hv] at hsem
        injection hsem with h2
        exact ⟨o, rfl, h2.symm⟩
    have h1 := vector_search_length_le db (emb q) (limit * 2) out0 hout0
    rw [hmap, List.length_map]
    omega
  refine ⟨hsemlen, by
    have := keyword_search_length_le db q (limit * 2)
    omega, ?_⟩
  set kw := HybridSearcher.keyword_search db q (limit * 2) with hkw
  set acc := HybridSearcher.buildScores w sem kw with hacc
  refine ⟨stableSortDesc (fun e => e.score) acc, ?_, ?_, ?_, ?_⟩
  · unfold HybridSearcher.hybrid_search
    rw [hsem]
    rfl
  · have hperm := (stableSortDesc_perm (fun e => e.score) acc).map (fun e => e.key)
    rw [hacc, keys_buildScores] at hperm
    exact hperm
  · intro e he
    have hmem : e ∈ acc := (stableSortDesc_perm (fun x => x.score) acc).mem_iff.mp he
    constructor
    · rw [score_eq_scoreOf (hacc ▸ nodup_keys_buildScores w sem kw) hmem]
      rw [hacc, scoreOf_buildScores]
    · exact dataName_buildScores w sem kw e (hacc ▸ hmem)
  · unfold stableSortDesc
    rw [List.pairwise_map]
    refine (sortedEnum_sorted _ _).imp ?_
    rintro a b (h1 | ⟨h1, _⟩)
    · exact h1.le
    · exact h1.ge

/-! ### Claim C8 -/

/-- The position of an accumulator entry equals the index of its key in
the first-encounter order of the input lists. -/
theorem buildScores_pos_key (w : ℚ) (sem kw : List ResultRow) (p : ℕ × FuseEntry)
    (hp : p ∈ (HybridSearcher.buildScores w sem kw).enum) :
    (firstSeen (sem.map (fun r => r.full_name) ++
      kw.map (fun r => r.full_name))).indexOf p.2.key = p.1 := by
  have hget : (HybridSearcher.buildScores w sem kw)[p.1]? = some p.2 :=
    List.mem_enum_iff_getElem?.mp hp
  have hkey : ((HybridSearcher.buildScores w sem kw).map
      (fun e => e.key))[p.1]? = some p.2.key := by
    rw [List.getElem?_map, hget]
    rfl
  rw [keys_buildScores] at hkey
  have hlt : p.1 < (firstSeen (sem.map (fun r => r.full_name) ++
      kw.map (fun r => r.full_name))).length := by
    by_contra hc
    rw [List.getElem?_eq_none (le_of_not_lt hc)] at hkey
    cases hkey
  have hLp : (firstSeen (sem.map (fun r => r.full_name) ++
      kw.map (fun r => r.full_name)))[p.1] = p.2.key := by
    rw [List.getElem?_eq_getElem hlt] at hkey
    injection hkey
  have hmem : p.2.key ∈ firstSeen (sem.map (fun r => r.full_name) ++
      kw.map (fun r => r.full_name)) := hLp ▸ List.getElem_mem hlt
  have hidx := List.indexOf_lt_length.mpr hmem
  have hLidx := List.getElem_indexOf hidx
  exact (List.Nodup.getElem_inj_iff (firstSeen_nodup _)).mp (hLidx.trans hLp.symm)

/-- C8: the fusion step is a pure function of its two input lists and
weight (hence deterministic on repeated calls), and its output order is
canonical: any two output positions are ordered by strictly descending
accumulated (spec-level RRF) score, with equal scores ordered by the
first-encounter position of the identity across the input lists (vector
list first, then lexical list). -/
theorem fuse_deterministic_tie_order (w : ℚ) (limit : ℕ) (sem kw : List ResultRow) :
    ∀ i j (hi : i < (HybridSearcher.fuse w limit sem kw).length)
      (hj : j < (HybridSearcher.fuse w limit sem kw).length), i < j →
      rrfScoreSpec w sem kw
          (((HybridSearcher.fuse w limit sem kw).get ⟨j, hj⟩).full_name) <
        rrfScoreSpec w sem kw
          (((HybridSearcher.fuse w limit sem kw).get ⟨i, hi⟩).full_name) ∨
      (rrfScoreSpec w sem kw
          (((HybridSearcher.fuse w limit sem kw).get ⟨i, hi⟩).full_name) =
        rrfScoreSpec w sem kw
          (((HybridSearcher.fuse w limit sem kw).get ⟨j, hj⟩).full_name) ∧
        (firstSeen (sem.map (fun r => r.full_name) ++
            kw.map (fun r => r.full_name))).indexOf
            (((HybridSearcher.fuse w limit sem kw).get ⟨i, hi⟩).full_name) <
          (firstSeen (sem.map (fun r => r.full_name) ++
            kw.map (fun r => r.full_name))).indexOf
            (((HybridSearcher.fuse w limit sem kw).get ⟨j, hj⟩).full_name)) := by
  intro i j hi hj hij
  have hout : HybridSearcher.fuse w limit sem kw =
      ((sortedEnum (fun e => e.score)
        (HybridSearcher.buildScores w sem kw)).take limit).map
        (fun p => p.2.data) := by
    unfold HybridSearcher.fuse stableSortDesc
    rw [(List.map_take _ _ _).symm, List.map_map]
    rfl
  have hTlen : i < ((sortedEnum (fun e => e.score)
      (HybridSearcher.buildScores w sem kw)).take limit).length := by
    rw [hout, List.length_map] at hi
    exact hi
  have hTlenj : j < ((sortedEnum (fun e => e.score)
      (HybridSearcher.buildScores w sem kw)).take limit).length := by
    rw [hout, List.length_map] at hj
    exact hj
  set T := (sortedEnum (fun e => e.score)
    (HybridSearcher.buildScores w sem kw)).take limit with hT
  have hgi : (HybridSearcher.fuse w limit sem kw).get ⟨i, hi⟩ =
      (T.get ⟨i, hTlen⟩).2.data := by
    rw [List.get_eq_getElem, List.get_eq_getElem]
    simp_rw [hout]
    rw [List.getElem_map]
  have hgj : (HybridSearcher.fuse w limit sem kw).get ⟨j, hj⟩ =
      (T.get ⟨j, hTlenj⟩).2.data := by
    rw [List.get_eq_getElem, List.get_eq_getElem]
    simp_rw [hout]
    rw [List.getElem_map]
  have hpair : T.Pairwise (fun a b => b.2.score < a.2.score ∨
      (a.2.score = b.2.score ∧ a.1 < b.1)) :=
    (sortedEnum_pairwise_strict _ _).sublist (List.take_sublist _ _)
  have hrel := List.pairwise_iff_get.mp hpair ⟨i, hTlen⟩ ⟨j, hTlenj⟩ hij
  have hmemT : ∀ (n : ℕ) (hn : n < T.length),
      T.get ⟨n, hn⟩ ∈ (HybridSearcher.buildScores w sem kw).enum := by
    intro n hn
    have h1 : T.get ⟨n, hn⟩ ∈ T := T.get_mem n hn
    have h2 := List.mem_of_mem_take h1
    exact (sortedEnum_perm _ _).mem_iff.mp h2
  have hscorekey : ∀ (n : ℕ) (hn : n < T.length),
      (T.get ⟨n, hn⟩).2.score = rrfScoreSpec w sem kw (T.get ⟨n, hn⟩).2.key ∧
      (T.get ⟨n, hn⟩).2.data.full_name = (T.get ⟨n, hn⟩).2.key ∧
      (firstSeen (sem.map (fun r => r.full_name) ++
        kw.map (fun r => r.full_name))).indexOf (T.get ⟨n, hn⟩).2.key =
        (T.get ⟨n, hn⟩).1 := by
    intro n hn
    have hmem := hmemT n hn
    have hmem2 : (T.get ⟨n, hn⟩).2 ∈ HybridSearcher.buildScores w sem kw := by
      have := List.mem_map_of_mem Prod.snd hmem
      rwa [List.enum_map_snd] at this
    refine ⟨?_, dataName_buildScores w sem kw _ hmem2, buildScores_pos_key w sem kw _ hmem⟩
    rw [score_eq_scoreOf (nodup_keys_buildScores w sem kw) hmem2, scoreOf_buildScores]
  obtain ⟨hsi, hni, hpi⟩ := hscorekey i hTlen
  obtain ⟨hsj, hnj, hpj⟩ := hscorekey j hTlenj
  rw [hgi, hgj, hni, hnj]
  rcases hrel with h1 | ⟨h1, h2⟩
  · left
    rw [← hsi, ← hsj]
    exact h1
  · right
    refine ⟨by rw [← hsi, ← hsj]; exact h1, ?_⟩
    rw [hpi, hpj]
    exact h2

/-- The concrete semantic sub-result of `wDb` for the constant embedder. -/
def semW : List ResultRow :=
  [⟨"alpha", some "web framework", "u1", none, [], 7, some 1, "semantic"⟩,
   ⟨"beta", none, "u2", none, [], 3, some 0, "semantic"⟩]

/-- Witness for C1 on the populated two-row store with limit 1. -/
theorem hybrid_search_implements_rrf_witness :
    HybridSearcher.semantic_search wDb embW "" (1 * 2) = .ok semW ∧
    (semW.length ≤ 2 * 1 ∧
     (HybridSearcher.keyword_search wDb "" (1 * 2)).length ≤ 2 * 1 ∧
     ∃ es : List FuseEntry,
       HybridSearcher.hybrid_search wDb embW "" 1 (7 / 10) =
         .ok ((es.take 1).map (fun e => e.data)) ∧
       List.Perm (es.map (fun e => e.key))
         (firstSeen (semW.map (fun r => r.full_name) ++
           (HybridSearcher.keyword_search wDb "" (1 * 2)).map
             (fun r => r.full_name))) ∧
       (∀ e ∈ es, e.score = rrfScoreSpec (7 / 10) semW
         (HybridSearcher.keyword_search wDb "" (1 * 2)) e.key ∧
         e.data.full_name = e.key) ∧
       es.Pairwise (fun a b => b.score ≤ a.score)) := by
  have hsem : HybridSearcher.semantic_search wDb embW "" (1 * 2) = .ok semW := by
    norm_num [HybridSearcher.semantic_search, StarDatabase.vector_search, argsort,
      ascRel, List.insertionSort, List.orderedInsert, dotQ, normSq, ratSqrt_one,
      embW, wDb, wRow1, wRow2, Row.toVectorResult, getD_zero, getD_one, getElemZero,
      getElemOne, List.filterMap_cons, List.find?, beqFalse, beqTrue, Except.map,
      semW]
  exact ⟨hsem, hybrid_search_implements_rrf wDb embW "" (7 / 10) 1 semW hsem⟩

/-- Witness for C8 at a concrete non-vacuous instance (two output rows,
positions 0 and 1 in scope of the quantifiers). -/
theorem fuse_deterministic_tie_order_witness :
    (HybridSearcher.fuse (7 / 10) 2 [fRowA] [fRowB]).length = 2 ∧
    (∀ i j (hi : i < (HybridSearcher.fuse (7 / 10) 2 [fRowA] [fRowB]).length)
      (hj : j < (HybridSearcher.fuse (7 / 10) 2 [fRowA] [fRowB]).length), i < j →
      rrfScoreSpec (7 / 10) [fRowA] [fRowB]
          (((HybridSearcher.fuse (7 / 10) 2 [fRowA] [fRowB]).get ⟨j, hj⟩).full_name) <
        rrfScoreSpec (7 / 10) [fRowA] [fRowB]
          (((HybridSearcher.fuse (7 / 10) 2 [fRowA] [fRowB]).get ⟨i, hi⟩).full_name) ∨
      (rrfScoreSpec (7 / 10) [fRowA] [fRowB]
          (((HybridSearcher.fuse (7 / 10) 2 [fRowA] [fRowB]).get ⟨i, hi⟩).full_name) =
        rrfScoreSpec (7 / 10) [fRowA] [fRowB]
          (((HybridSearcher.fuse (7 / 10) 2 [fRowA] [fRowB]).get ⟨j, hj⟩).full_name) ∧
        (firstSeen ([fRowA].map (fun r => r.full_name) ++
            [fRowB].map (fun r => r.full_name))).indexOf
            (((HybridSearcher.fuse (7 / 10) 2 [fRowA] [fRowB]).get ⟨i, hi⟩).full_name) <
          (firstSeen ([fRowA].map (fun r => r.full_name) ++
            [fRowB].map (fun r => r.full_name))).indexOf
            (((HybridSearcher.fuse (7 / 10) 2 [fRowA] [fRowB]).get ⟨j, hj⟩).full_name))) := by
  constructor
  · norm_num [HybridSearcher.fuse, HybridSearcher.buildScores, HybridSearcher.semStep,
      HybridSearcher.kwStep, updateScore, hasKey, stableSortDesc, sortedEnum, descRel,
      List.insertionSort, List.orderedInsert, fRowA, fRowB, List.enum, List.enumFrom,
      beqFalse, beqTrue, strNe3, strNe4]
  · exact fuse_deterministic_tie_order (7 / 10) 2 [fRowA] [fRowB]

end GhStarSearch
